import Mathlib

/-!
Shallow embedding of the joistor state container
(`src/unnamed/part_001`, first module, lines 1-324: the `Joistor` factory
with error callbacks).  The store keeps a `schema` map from field names to
validation rules, a `state` object guarded by proxy setters that validate
every mutation, and two bounded history ledgers of JSON deep-copy
snapshots.  JavaScript values are modelled by `Value` (including
`undefined`, which `JSON.parse(JSON.stringify(_))` treats specially),
objects by insertion-ordered association lists, and the opaque Joi rules
by boolean-valued validation capabilities (`Rule`), following section 1 of
the specification which scopes the rule engine out as an external
collaborator.
-/

/-- A JavaScript value as joistor manipulates it: `vUndef` is `undefined`
(present keys can hold it), `vNum` models numbers by integers (the
repository only exercises integral data), `vObj` keeps the insertion
order of keys as JavaScript objects do. -/
inductive Value where
  | vUndef : Value
  | vNull : Value
  | vBool : Bool → Value
  | vNum : Int → Value
  | vStr : String → Value
  | vArr : List Value → Value
  | vObj : List (String × Value) → Value
  deriving Repr

/-- JavaScript truthiness, used by `stateRegisterProxySetter`'s
`if (oldValue)` rollback test. -/
def Value.truthy : Value → Bool
  | .vUndef => false
  | .vNull => false
  | .vBool b => b
  | .vNum n => n != 0
  | .vStr s => s != ""
  | .vArr _ => true
  | .vObj _ => true

/-- An object: the raw proxy target behind `state`, and also the shape of
history snapshots. -/
abbrev Obj := List (String × Value)

/-- `obj[k]` read: first entry with the key (JavaScript objects have unique
keys, so first = only). `none` is JavaScript `undefined` for a missing key.
Generic over the entry type so the same map discipline serves `state` and
`schema`. -/
def olookup {α : Type} : List (String × α) → String → Option α
  | [], _ => none
  | (k, v) :: t, f => if k = f then some v else olookup t f

/-- `obj[k] = v`: replace in place when the key exists (keeping its
position, as JavaScript does), otherwise append (insertion order). -/
def oset {α : Type} : List (String × α) → String → α → List (String × α)
  | [], f, v => [(f, v)]
  | (k, w) :: t, f, v => if k = f then (f, v) :: t else (k, w) :: oset t f v

/-- `delete obj[k]`: remove the entry, keeping the order of the rest. -/
def odel {α : Type} : List (String × α) → String → List (String × α)
  | [], _ => []
  | (k, w) :: t, f => if k = f then t else (k, w) :: odel t f

/-- `Object.keys(obj)` in insertion order. -/
def okeys {α : Type} (l : List (String × α)) : List String := l.map Prod.fst

mutual
/-- `JSON.parse(JSON.stringify(v))`: `none` when `v` is `undefined`
(dropped from objects, `null` inside arrays). Numbers and strings are
stable in this integer model. -/
def jrt : Value → Option Value
  | .vUndef => none
  | .vNull => some .vNull
  | .vBool b => some (.vBool b)
  | .vNum n => some (.vNum n)
  | .vStr s => some (.vStr s)
  | .vArr xs => some (.vArr (jrtArr xs))
  | .vObj kvs => some (.vObj (jrtObj kvs))
/-- JSON round trip of the elements of an array: `undefined` becomes `null`. -/
def jrtArr : List Value → List Value
  | [] => []
  | x :: t => (jrt x).getD .vNull :: jrtArr t
/-- JSON round trip of an object's entries (also of a whole state object,
the shape of snapshots in the history ledgers): keys whose value is
`undefined` disappear. -/
def jrtObj : List (String × Value) → List (String × Value)
  | [] => []
  | (k, v) :: t =>
    match jrt v with
    | none => jrtObj t
    | some w => (k, w) :: jrtObj t
end

/-- The opaque validation capability a registered field carries
(`schemaObj[field]`, a Joi schema in the source).  `validate` consults
`rule.strict().validate(v)` or `rule.validate(v)` depending on the
store's `strict` option; only the presence or absence of a resulting
`error` matters to the store, so each mode is a boolean acceptance
function (`true` = no validation error). -/
structure Rule where
  lenientOk : Value → Bool
  strictOk : Value → Bool

/-- Run the rule in the mode selected by `opts.strict`. -/
def Rule.check (r : Rule) (strictMode : Bool) (v : Value) : Bool :=
  if strictMode then r.strictOk v else r.lenientOk v

/-- The options object accepted by the `Joistor` factory.
`historyBuffer = none` models a caller-supplied options object that omits
`historyBuffer` (the property then reads as `undefined`, and the JavaScript
comparison `length > undefined` is always false). -/
structure Opts where
  historyBuffer : Option Nat
  strict : Bool
  errorLog : Bool

/-- The default options object used when `Joistor()` is called with no
argument: `{ historyBuffer: 20, strict: false, errorLog: true }`. -/
def defaultOpts : Opts := ⟨some 20, false, true⟩

/-- Observable side effects of a store operation, in order of occurrence.
Callbacks are pure observers here (section 5 of the spec: they are invoked
synchronously; no claim depends on a callback that itself mutates). -/
inductive Event where
  /-- The rule engine was consulted for `field` with candidate whole-field
  value `v` (`schema[field].validate(...)` inside `validate`). -/
  | validateCall (field : String) (v : Value) : Event
  /-- `validate` found no schema for `field` and logged
  `No schema for field`, returning `undefined`. -/
  | noSchema (field : String) : Event
  /-- `executeValidationErrorCallbacks`: every registered onError callback
  (including the default logger) was invoked with the validation error. -/
  | errorCbs : Event
  /-- `executeChangeCallbacks base`: the `nsubs` onChange callbacks
  subscribed to `base` were each invoked. -/
  | changeCbs (base : String) (nsubs : Nat) : Event
  deriving Repr

/-- An abnormal termination escaping to the caller. -/
inductive JErr where
  /-- `TypeError`: destructuring `{ error }` from the `undefined` returned
  by `validate` when no schema exists for the field. -/
  | typeError (msg : String) : JErr
  /-- `throw new Error(...)` from `updateUndoRedoState`. -/
  | jsError (msg : String) : JErr
  deriving Repr

/-- The closure state of one `Joistor()` store: `updateHistory` is the
replay flag toggled by `register` and `updateUndoRedoState`; `subs` lists
the paths passed to `onChange`, one entry per registered callback. -/
@[ext] structure Store where
  opts : Opts
  updateHistory : Bool
  schema : List (String × Rule)
  stateObj : Obj
  undoH : List Obj
  redoH : List Obj
  subs : List String

/-- `history.undo.push(snap); if (length > opts.historyBuffer) shift()`:
append, then evict the oldest entry when over capacity.  With an absent
`historyBuffer` the comparison is `length > undefined`, which is false, so
nothing is ever evicted. -/
def pushSnap (opts : Opts) (l : List Obj) (snap : Obj) : List Obj :=
  let u := l ++ [snap]
  match opts.historyBuffer with
  | some b => if u.length > b then u.drop 1 else u
  | none => u

/-- `addUndo()` from `updateUndoHistory`: gated on the `updateHistory`
flag. -/
def pushUndo (s : Store) (snap : Obj) : Store :=
  if s.updateHistory then { s with undoH := pushSnap s.opts s.undoH snap } else s

/-- `addRedo()` from `updateRedoHistory`: gated on the `updateHistory`
flag. -/
def pushRedo (s : Store) (snap : Obj) : Store :=
  if s.updateHistory then { s with redoH := pushSnap s.opts s.redoH snap } else s

/-- `clearRedo()`: gated on the `updateHistory` flag. -/
def clearRedo (s : Store) : Store :=
  if s.updateHistory then { s with redoH := [] } else s

/-- How a proxy-intercepted write ended: `committed` reached the
`addUndo(); clearRedo(); executeChangeCallbacks(...)` tail, `rejected`
took the validation-error rollback branch, `crashed` threw out of the
setter. -/
inductive Outcome where
  | committed : Outcome
  | rejected : Outcome
  | crashed (e : JErr) : Outcome
  deriving Repr

/-- Result of one intercepted write: the store as the setter leaves it
(mutations before a throw persist), the observable events, the outcome. -/
structure WriteRes where
  store : Store
  events : List Event
  outcome : Outcome

/-- `stateRegisterProxySetter(target, prop, value)` (lines 127-155): the
top-level write interceptor.  The undo snapshot (a JSON deep copy of the
whole pre-write state) is captured on entry; the write is applied
speculatively; `validate(obj, prop)` destructures `{ error }` from the
result, so a missing schema makes the setter throw a `TypeError` with the
speculative write still in place; a validation error rolls back by
restoring `oldValue` when it is truthy and deleting the key otherwise;
success pushes the snapshot, clears redo and fires the field's onChange
callbacks. -/
def setTop (s : Store) (prop : String) (value : Value) : WriteRes :=
  let snap := jrtObj s.stateObj
  let oldValue := olookup s.stateObj prop
  let st1 := oset s.stateObj prop value
  match olookup s.schema prop with
  | none =>
    { store := { s with stateObj := st1 },
      events := [.noSchema prop],
      outcome := .crashed (.typeError "cannot destructure error of undefined") }
  | some r =>
    if r.check s.opts.strict value then
      { store :=
          { s with
            stateObj := st1,
            undoH := if s.updateHistory then pushSnap s.opts s.undoH snap else s.undoH,
            redoH := if s.updateHistory then [] else s.redoH },
        events := [.validateCall prop value, .changeCbs prop (s.subs.count prop)],
        outcome := .committed }
    else
      { store := { s with stateObj :=
            match oldValue with
            | some ov => if ov.truthy then oset st1 prop ov else odel st1 prop
            | none => odel st1 prop },
        events := [.validateCall prop value, .errorCbs],
        outcome := .rejected }

/-- One step of a write path inside a field's value tree: an object key or
an array index (array indices are numeric strings in JavaScript; the
nested proxy handler wraps both objects and arrays). -/
inductive PE where
  | key (s : String) : PE
  | idx (n : Nat) : PE
  deriving Repr, DecidableEq

/-- Read one step (`obj[prop]` on a container); `none` also covers the
cases where the nested proxy machinery cannot reach the location (a
non-container is not wrapped, `new Proxy(null, ...)` throws). -/
def Value.getElem : Value → PE → Option Value
  | .vObj kvs, .key s => olookup kvs s
  | .vArr xs, .idx n => xs.get? n
  | _, _ => none

/-- Write one step into a container.  Array writes update in place for
`n < length` and append for `n = length`; holes (`n > length`) are not
modelled. -/
def Value.setElem : Value → PE → Value → Option Value
  | .vObj kvs, .key s, v => some (.vObj (oset kvs s v))
  | .vArr xs, .idx n, v =>
    if n < xs.length then some (.vArr (xs.set n v))
    else if n = xs.length then some (.vArr (xs ++ [v]))
    else none
  | _, _, _ => none

/-- Navigate a path of getter steps. -/
def getAt : Value → List PE → Option Value
  | v, [] => some v
  | v, p :: ps => match v.getElem p with
    | some c => getAt c ps
    | none => none

/-- Set `root[path][last] = v`, rebuilding the spine (the source mutates in
place through nested proxies; the functional update is observationally the
same single-location change). -/
def setAt : Value → List PE → PE → Value → Option Value
  | root, [], last, v => root.setElem last v
  | root, p :: ps, last, v =>
    match root.getElem p with
    | none => none
    | some c =>
      match setAt c ps last v with
      | none => none
      | some c' => root.setElem p c'

/-- `stateFieldProxySetter(obj, prop, value)` (lines 171-196): a write at
any depth below top-level field `base`; `path` addresses the parent
container inside `state[base]` and `last` is the touched property.  The
whole current value of `base` is re-validated; a rejection writes
`oldValue` back unconditionally — when the write introduced the location,
`oldValue` is `undefined` and the key remains, holding `undefined`.
`none` means the navigation itself cannot produce a settable proxy (the
assignment throws before reaching the store, leaving it untouched). -/
def setNested (s : Store) (base : String) (path : List PE) (last : PE) (value : Value) :
    Option WriteRes :=
  match olookup s.stateObj base with
  | none => none
  | some bv =>
    match getAt bv path with
    | none => none
    | some parent =>
      let oldValue := parent.getElem last
      match setAt bv path last value with
      | none => none
      | some bv1 =>
        let snap := jrtObj s.stateObj
        let st1 := oset s.stateObj base bv1
        some <|
        match olookup s.schema base with
        | none =>
          { store := { s with stateObj := st1 },
            events := [.noSchema base],
            outcome := .crashed (.typeError "cannot destructure error of undefined") }
        | some r =>
          if r.check s.opts.strict bv1 then
            { store :=
                { s with
                  stateObj := st1,
                  undoH := if s.updateHistory then pushSnap s.opts s.undoH snap else s.undoH,
                  redoH := if s.updateHistory then [] else s.redoH },
              events := [.validateCall base bv1, .changeCbs base (s.subs.count base)],
              outcome := .committed }
          else
            match setAt bv path last (oldValue.getD .vUndef) with
            | none =>
              { store := { s with stateObj := st1 },
                events := [.validateCall base bv1, .errorCbs],
                outcome := .rejected }
            | some bv2 =>
              { store := { s with stateObj := oset s.stateObj base bv2 },
                events := [.validateCall base bv1, .errorCbs],
                outcome := .rejected }

/-- `register(schemaObj, stateObj)` (lines 28-36): clear the replay flag,
take the FIRST enumerated key of `schemaObj`, install its rule, assign the
default value through the proxy setter (so it is validated but, with the
flag down, never recorded in history), restore the flag, and fire the
onRegister callbacks (pure observers, not modelled as events).  An empty
`schemaObj` makes the source manufacture the key `"undefined"` with an
`undefined` rule and then throw before touching history; that degenerate
call is modelled as leaving the store unchanged. -/
def register (s : Store) (schemaObj : List (String × Rule)) (stateObj : Obj) : Store :=
  match schemaObj with
  | [] => s
  | (f, _) :: _ =>
    match olookup schemaObj f with
    | none => s
    | some r =>
      let s1 := { s with updateHistory := false, schema := oset s.schema f r }
      let wr := setTop s1 f ((olookup stateObj f).getD .vUndef)
      { wr.store with updateHistory := true }

/-- `unregister(field)` (lines 45-50): plain `delete` on both maps (the
proxy has no delete trap, so the deletes reach the target directly, with
no validation and no history), then the onUnregister callbacks. -/
def unregister (s : Store) (f : String) : Store :=
  { s with schema := odel s.schema f, stateObj := odel s.stateObj f }

/-- `onChange(path, callback)` (lines 67-70): append one subscriber. -/
def onChange (s : Store) (path : String) : Store :=
  { s with subs := s.subs ++ [path] }

/-- The body of `updateUndoRedoState`'s `forEach` (lines 233-239): for each
field of the restored snapshot, drop the replay flag and write
`state[field] = newState[field]` through the top-level proxy setter.  A
throw from the setter (missing schema) escapes the loop with the flag
still down and the partial restoration in place; otherwise the flag is
raised after the loop. -/
def replayLoop (s : Store) (fields : List String) (newState : Obj) :
    Store × List Event × Option JErr :=
  match fields with
  | [] => ({ s with updateHistory := true }, [], none)
  | f :: fs =>
    let wr := setTop { s with updateHistory := false } f ((olookup newState f).getD .vUndef)
    match wr.outcome with
    | .crashed e => (wr.store, wr.events, some e)
    | _ =>
      let r := replayLoop wr.store fs newState
      (r.1, wr.events ++ r.2.1, r.2.2)

/-- `updateUndoRedoState(newState)` (lines 222-242): check only that every
CURRENT field name appears in the snapshot (`oldStateFields.every(f =>
newStateFields.includes(f))`) — the converse inclusion is not checked —
throwing `Error` before any write when it fails, then replay the
snapshot's fields through the proxy. -/
def replayState (s : Store) (newState : Obj) : Store × List Event × Option JErr :=
  let oldFields := okeys s.stateObj
  let newFields := okeys newState
  if oldFields.all (fun f => newFields.contains f) then
    replayLoop s newFields newState
  else
    (s, [], some (.jsError "New state fields are not the same as old state fields"))

/-- `undo()` (lines 83-93): a no-op on an empty undo ledger; otherwise a
JSON snapshot of the current state is taken (`updateRedoHistory(state)`),
the most recent undo entry is popped, the snapshot is pushed onto redo
(gated on the replay flag, with capacity eviction), and the popped entry
is replayed into live state. -/
def undoFn (s : Store) : Store × List Event × Option JErr :=
  match s.undoH.getLast? with
  | none => (s, [], none)
  | some prevState =>
    let redoObj := jrtObj s.stateObj
    let s1 := { s with undoH := s.undoH.dropLast }
    let s2 := pushRedo s1 redoObj
    replayState s2 prevState

/-- `redo()` (lines 103-113): the mirror of `undo`. -/
def redoFn (s : Store) : Store × List Event × Option JErr :=
  match s.redoH.getLast? with
  | none => (s, [], none)
  | some nextState =>
    let undoObj := jrtObj s.stateObj
    let s1 := { s with redoH := s.redoH.dropLast }
    let s2 := pushUndo s1 undoObj
    replayState s2 nextState

/-- The store a `Joistor(opts)` call returns: empty maps and ledgers, and
the replay flag initially down (line 2: `let updateHistory = false`). -/
def Joistor (opts : Opts) : Store :=
  { opts := opts, updateHistory := false, schema := [], stateObj := [],
    undoH := [], redoH := [], subs := [] }

/-- A caller-side write into `store.state`: either a whole top-level field
assignment or a write at depth below one. -/
inductive W where
  | top (f : String) (v : Value) : W
  | nest (base : String) (path : List PE) (last : PE) (v : Value) : W

/-- Dispatch a write to the proxy setter it triggers.  A nested write whose
navigation fails throws in user code before any setter runs, leaving the
store untouched. -/
def doWrite (s : Store) : W → WriteRes
  | .top f v => setTop s f v
  | .nest b p l v =>
    (setNested s b p l v).getD
      { store := s, events := [], outcome := .crashed (.typeError "navigation failed") }

/-- Every public operation of the store facade, for stating whole-lifetime
invariants. -/
inductive Op where
  | reg (schemaObj : List (String × Rule)) (stateObj : Obj) : Op
  | unreg (f : String) : Op
  | write (w : W) : Op
  | subscribe (path : String) : Op
  | undoOp : Op
  | redoOp : Op

/-- Apply one public operation, keeping the store a crashing operation
leaves behind. -/
def applyOp (s : Store) : Op → Store
  | .reg so st => register s so st
  | .unreg f => unregister s f
  | .write w => (doWrite s w).store
  | .subscribe p => onChange s p
  | .undoOp => (undoFn s).1
  | .redoOp => (redoFn s).1

/-- Run a sequence of public operations from a store. -/
def runOps (s : Store) (ops : List Op) : Store := ops.foldl applyOp s

/-- The state mutation `updateUndoRedoState`'s loop performs: each snapshot
field written over the current state in the snapshot's enumeration order. -/
def setAll (st : Obj) (fields : List String) (p : Obj) : Obj :=
  fields.foldl (fun a f => oset a f ((olookup p f).getD .vUndef)) st

/-- The events a successful replay of snapshot fields emits: for each field,
one rule-engine consultation and one onChange dispatch (this is what the
code does on lines 233-239: the replay writes go through the validating,
callback-firing proxy setter). -/
def replayEvents (subs : List String) (fields : List String) (p : Obj) : List Event :=
  match fields with
  | [] => []
  | f :: fs =>
    .validateCall f ((olookup p f).getD .vUndef) ::
      .changeCbs f (subs.count f) :: replayEvents subs fs p

/-- The store after `undo()`, discarding events and a possible throw. -/
def undoStep (s : Store) : Store := (undoFn s).1

/-- The store after `redo()`, discarding events and a possible throw. -/
def redoStep (s : Store) : Store := (redoFn s).1

/-- State/schema key-set agreement: every field present in state has a
schema entry and vice versa (the claim C9 invariant). -/
def KeysEq (s : Store) : Prop :=
  ∀ f, (olookup s.stateObj f).isSome = (olookup s.schema f).isSome

/-- Every entry of the object `p` names a registered field whose rule
accepts the entry's value (in the store's validation mode). -/
def ReplayVals (s : Store) (p : Obj) : Prop :=
  ∀ f v, olookup p f = some v →
    ∃ r, olookup s.schema f = some r ∧ r.check s.opts.strict v = true

/-- A healthy live state: JSON-stable (no `undefined` anywhere, so the
snapshot copy is value-identical), duplicate-free keys, and every field
currently valid under its rule — exactly what holds after registrations
with accepted defaults and committed writes of JSON-stable values. -/
def GoodSt (s : Store) : Prop :=
  jrtObj s.stateObj = s.stateObj ∧ (okeys s.stateObj).Nodup ∧ ReplayVals s s.stateObj

/-- A history snapshot compatible with the current store: same field names
in the same enumeration order as the live state, JSON-stable, and all its
values valid. -/
def SnapG (s : Store) (p : Obj) : Prop :=
  okeys p = okeys s.stateObj ∧ jrtObj p = p ∧ ReplayVals s p

/-- `n` does not reach the ledger capacity (so one more push cannot
evict); vacuous when `historyBuffer` was omitted. -/
def pushFits (opts : Opts) (n : Nat) : Prop :=
  match opts.historyBuffer with
  | some b => n < b
  | none => True

/-- `n` is within the ledger capacity bound, when one exists. -/
def withinCap (opts : Opts) (n : Nat) : Prop :=
  match opts.historyBuffer with
  | some b => n ≤ b
  | none => True

/-- A write whose value survives the JSON snapshot round trip unchanged
(no `undefined` inside). -/
def WStable : W → Prop
  | .top _ v => jrt v = some v
  | .nest _ _ _ v => jrt v = some v

/-- A run of writes each of which the validation gateway accepts (reaches
the commit tail of its proxy setter). -/
inductive CommitSeq : Store → List W → Store → Prop where
  | nil (s : Store) : CommitSeq s [] s
  | cons (s : Store) (w : W) (ws : List W) (t : Store)
      (hc : (doWrite s w).outcome = .committed)
      (hrest : CommitSeq (doWrite s w).store ws t) : CommitSeq s (w :: ws) t

/-- Side conditions under which one public operation preserves state/schema
key-set agreement: a register whose default passes validation (or
overwrites a truthy previous value), writes aimed at registered fields
whose rollback cannot hit the falsy-delete branch, and undo/redo whose
restored snapshot only mentions registered fields with valid values. -/
def SafeOp (s : Store) : Op → Prop
  | .reg so sto =>
    match so with
    | [] => True
    | (f, r) :: _ =>
      r.check s.opts.strict ((olookup sto f).getD .vUndef) = true ∨
        ∃ ov, olookup s.stateObj f = some ov ∧ ov.truthy = true
  | .unreg _ => True
  | .write w =>
    match w with
    | .top f v => ∃ r, olookup s.schema f = some r ∧
        (r.check s.opts.strict v = true ∨
          ∃ ov, olookup s.stateObj f = some ov ∧ ov.truthy = true)
    | .nest _ _ _ _ => True
  | .subscribe _ => True
  | .undoOp => ∀ p, s.undoH.getLast? = some p → ReplayVals s p
  | .redoOp => ∀ p, s.redoH.getLast? = some p → ReplayVals s p

/-! ### Concrete rules and stores used by the witnesses and counterexamples -/

/-- A rule that accepts every candidate (for example `Joi.any()`). -/
def ruleAny : Rule := ⟨fun _ => true, fun _ => true⟩

/-- A rule accepting exactly numbers (for example `Joi.number()` on
numeric input). -/
def ruleNum : Rule :=
  ⟨fun v => match v with | .vNum _ => true | _ => false,
   fun v => match v with | .vNum _ => true | _ => false⟩

/-- A rule rejecting every candidate. -/
def ruleNone : Rule := ⟨fun _ => false, fun _ => false⟩

/-- A rule for the repository test schema `{ id: number, name: string }`. -/
def ruleSys : Rule :=
  ⟨fun v => match v with
    | .vObj [("id", .vNum _), ("name", .vStr _)] => true
    | _ => false,
   fun v => match v with
    | .vObj [("id", .vNum _), ("name", .vStr _)] => true
    | _ => false⟩

/-- A store with one numeric field `cnt` holding the falsy value `0`. -/
def cntStore : Store := register (Joistor defaultOpts) [("cnt", ruleNum)] [("cnt", .vNum 0)]

/-- The repository test store: field `system`, default
`{ id: 0, name: "" }`, one onChange subscriber. -/
def sysStore : Store :=
  onChange (register (Joistor defaultOpts) [("system", ruleSys)]
    [("system", .vObj [("id", .vNum 0), ("name", .vStr "")])]) "system"

/-- `sysStore` after the committed write
`state.system = { id: 1, name: "test" }`. -/
def sysStore1 : Store :=
  (setTop sysStore "system" (.vObj [("id", .vNum 1), ("name", .vStr "test")])).store

/-- Permissive store whose written value contains an `undefined` entry. -/
def undefStore : Store :=
  (setTop (register (Joistor defaultOpts) [("u", ruleAny)] [("u", .vObj [])])
    "u" (.vObj [("a", .vUndef)])).store

/-- A store built with `Joistor({ errorLog: false })`: the options object
omits `historyBuffer`. -/
def noCapStore : Store :=
  register (Joistor ⟨none, false, false⟩) [("f", ruleAny)] [("f", .vNum 0)]

/-- Twenty-one accepted writes. -/
def writes21 : List Op := List.replicate 21 (.write (.top "f" (.vNum 1)))

/-- Register `f` and `g`, commit one write to `f` (snapshotting a state
that still contains `g`), then unregister `g`: the undo ledger now holds a
snapshot with strictly more fields than the live state. -/
def mismatchStore : Store :=
  unregister
    ((setTop
        (register (register (Joistor defaultOpts) [("f", ruleAny)] [("f", .vNum 1)])
          [("g", ruleAny)] [("g", .vNum 2)])
        "f" (.vNum 3)).store)
    "g"

/-- Registering a field whose default value fails validation: the schema
keeps the field, the state write is rolled back to nothing. -/
def badDefaultStore : Store :=
  register (Joistor defaultOpts) [("bad", ruleNone)] [("bad", .vNum 1)]

/-- A store with one numeric field `u` holding `5` (all good-state
conditions hold). -/
def uStore : Store := register (Joistor defaultOpts) [("u", ruleNum)] [("u", .vNum 5)]

/-- `uStore` after the committed write `state.u = 7`. -/
def uStore1 : Store := (setTop uStore "u" (.vNum 7)).store

/-- `uStore1` after `undo()`: non-empty redo ledger. -/
def uStore2 : Store := undoStep uStore1


/-! ### Association-list map lemmas -/

@[simp] theorem okeys_nil {α : Type} : okeys ([] : List (String × α)) = [] := rfl

@[simp] theorem okeys_cons {α : Type} (k : String) (w : α) (t : List (String × α)) :
    okeys ((k, w) :: t) = k :: okeys t := rfl

@[simp] theorem okeys_append {α : Type} (a b : List (String × α)) :
    okeys (a ++ b) = okeys a ++ okeys b := by
  simp [okeys]

theorem olookup_oset_self {α : Type} (l : List (String × α)) (f : String) (v : α) :
    olookup (oset l f v) f = some v := by
  induction l with
  | nil => simp [oset, olookup]
  | cons p t ih =>
    obtain ⟨k, w⟩ := p
    by_cases h : k = f
    · simp [oset, h, olookup]
    · simp [oset, h, olookup, ih]

theorem olookup_oset_ne {α : Type} (l : List (String × α)) (f g : String) (v : α)
    (h : g ≠ f) : olookup (oset l f v) g = olookup l g := by
  have hfg : ¬(f = g) := fun hh => h hh.symm
  induction l with
  | nil => simp [oset, olookup, hfg]
  | cons p t ih =>
    obtain ⟨k, w⟩ := p
    by_cases hk : k = f
    · subst hk
      simp [oset, olookup, hfg]
    · simp only [oset, if_neg hk, olookup]
      by_cases hg : k = g <;> simp [hg, ih]

theorem okeys_oset_of_mem {α : Type} (l : List (String × α)) (f : String) (v : α)
    (h : f ∈ okeys l) : okeys (oset l f v) = okeys l := by
  induction l with
  | nil => simp at h
  | cons p t ih =>
    obtain ⟨k, w⟩ := p
    by_cases hk : k = f
    · simp [oset, hk]
    · have hf : f ∈ okeys t := by
        rcases List.mem_cons.mp (by simpa using h) with h1 | h1
        · exact absurd h1.symm hk
        · exact h1
      simp [oset, hk, ih hf]

theorem okeys_oset_of_not_mem {α : Type} (l : List (String × α)) (f : String) (v : α)
    (h : f ∉ okeys l) : okeys (oset l f v) = okeys l ++ [f] := by
  induction l with
  | nil => simp [oset]
  | cons p t ih =>
    obtain ⟨k, w⟩ := p
    have hk : k ≠ f := by
      intro hh; exact h (by simp [hh])
    have hf : f ∉ okeys t := by
      intro hh; exact h (by simp [hh])
    simp [oset, hk, ih hf]

theorem olookup_isSome_iff_mem {α : Type} (l : List (String × α)) (f : String) :
    (olookup l f).isSome = true ↔ f ∈ okeys l := by
  induction l with
  | nil => simp [olookup]
  | cons p t ih =>
    obtain ⟨k, w⟩ := p
    by_cases hk : k = f
    · subst hk
      simp [olookup]
    · have hk2 : ¬(f = k) := fun hh => hk hh.symm
      simp [olookup, hk, hk2, ih]

theorem olookup_eq_none_of_not_mem {α : Type} (l : List (String × α)) (f : String)
    (h : f ∉ okeys l) : olookup l f = none := by
  cases ho : olookup l f with
  | none => rfl
  | some v =>
    exact absurd ((olookup_isSome_iff_mem l f).mp (by simp [ho])) h

theorem olookup_mem {α : Type} (l : List (String × α)) (f : String) (v : α)
    (h : olookup l f = some v) : (f, v) ∈ l := by
  induction l with
  | nil => simp [olookup] at h
  | cons p t ih =>
    obtain ⟨k, w⟩ := p
    by_cases hk : k = f
    · subst hk
      simp [olookup] at h
      simp [h]
    · simp [olookup, hk] at h
      simp [ih h]

theorem olookup_odel_ne {α : Type} (l : List (String × α)) (f g : String)
    (h : g ≠ f) : olookup (odel l f) g = olookup l g := by
  induction l with
  | nil => simp [odel]
  | cons p t ih =>
    obtain ⟨k, w⟩ := p
    by_cases hk : k = f
    · subst hk
      have hgk : ¬(k = g) := fun hh => h hh.symm
      simp [odel, olookup, hgk]
    · simp only [odel, if_neg hk, olookup]
      by_cases hg : k = g <;> simp [hg, ih]

theorem olookup_odel_self {α : Type} (l : List (String × α)) (f : String)
    (hnd : (okeys l).Nodup) : olookup (odel l f) f = none := by
  induction l with
  | nil => simp [odel, olookup]
  | cons p t ih =>
    obtain ⟨k, w⟩ := p
    rw [okeys_cons, List.nodup_cons] at hnd
    by_cases hk : k = f
    · subst hk
      simp only [odel, if_pos rfl]
      exact olookup_eq_none_of_not_mem t k hnd.1
    · simp [odel, hk, olookup, ih hnd.2]

theorem odel_of_not_mem {α : Type} (l : List (String × α)) (f : String)
    (h : f ∉ okeys l) : odel l f = l := by
  induction l with
  | nil => simp [odel]
  | cons p t ih =>
    obtain ⟨k, w⟩ := p
    have hk : k ≠ f := by
      intro hh; exact h (by simp [hh])
    have hf : f ∉ okeys t := by
      intro hh; exact h (by simp [hh])
    simp [odel, hk, ih hf]

theorem oext {α : Type} (a : List (String × α)) :
    ∀ (b : List (String × α)), okeys a = okeys b → (okeys a).Nodup →
      (∀ f, olookup a f = olookup b f) → a = b := by
  induction a with
  | nil =>
    intro b hk _ _
    cases b with
    | nil => rfl
    | cons q u =>
      obtain ⟨k2, w2⟩ := q
      simp at hk
  | cons p t ih =>
    intro b hk hnd hl
    obtain ⟨k, w⟩ := p
    cases b with
    | nil => simp at hk
    | cons q u =>
      obtain ⟨k2, w2⟩ := q
      rw [okeys_cons, okeys_cons] at hk
      injection hk with hkk hkt
      subst hkk
      rw [okeys_cons, List.nodup_cons] at hnd
      have hw : w = w2 := by
        have := hl k
        simpa [olookup] using this
      subst hw
      have ht : t = u := by
        apply ih u hkt hnd.2
        intro f
        by_cases hf : f = k
        · subst hf
          rw [olookup_eq_none_of_not_mem t f hnd.1,
            olookup_eq_none_of_not_mem u f (hkt ▸ hnd.1)]
        · have hfk : ¬(k = f) := fun hh => hf hh.symm
          have := hl f
          simpa [olookup, hfk] using this
      simp [ht]

/-! ### JSON round-trip stability lemmas -/

theorem jrtObj_length_le (l : List (String × Value)) : (jrtObj l).length ≤ l.length := by
  induction l with
  | nil => simp [jrtObj]
  | cons p t ih =>
    obtain ⟨k, v⟩ := p
    rw [jrtObj]
    cases jrt v with
    | none => simpa using Nat.le_succ_of_le ih
    | some w => simpa using ih

theorem jrtObj_cons_stable (k : String) (v : Value) (t : List (String × Value))
    (h : jrtObj ((k, v) :: t) = (k, v) :: t) : jrt v = some v ∧ jrtObj t = t := by
  cases hv : jrt v with
  | none =>
    simp only [jrtObj, hv] at h
    have := jrtObj_length_le t
    rw [h] at this
    simp at this
  | some w =>
    simp only [jrtObj, hv] at h
    injection h with h1 h2
    injection h1 with _ hw
    subst hw
    exact ⟨rfl, h2⟩

theorem jrtObj_entry_stable (l : List (String × Value)) (k : String) (v : Value)
    (hst : jrtObj l = l) (hmem : (k, v) ∈ l) : jrt v = some v := by
  induction l with
  | nil => simp at hmem
  | cons p t ih =>
    obtain ⟨k2, w⟩ := p
    obtain ⟨h1, h2⟩ := jrtObj_cons_stable k2 w t hst
    rcases List.mem_cons.mp hmem with hm | hm
    · obtain ⟨hk, hv⟩ := Prod.mk.injEq _ _ _ _ ▸ hm
      simp at hm
      obtain ⟨hk2, hv2⟩ := hm
      subst hv2
      exact h1
    · exact ih h2 hm

theorem jrtObj_oset (l : List (String × Value)) (f : String) (v : Value)
    (hst : jrtObj l = l) (hv : jrt v = some v) : jrtObj (oset l f v) = oset l f v := by
  induction l with
  | nil => simp [oset, jrtObj, hv]
  | cons p t ih =>
    obtain ⟨k, w⟩ := p
    obtain ⟨h1, h2⟩ := jrtObj_cons_stable k w t hst
    by_cases hk : k = f
    · subst hk
      simp [oset, jrtObj, hv, h2]
    · simp [oset, hk, jrtObj, h1, ih h2]

theorem jrtArr_stable_elem (xs : List Value) (x : Value)
    (hst : jrtArr xs = xs) (hmem : x ∈ xs) : jrt x = some x := by
  induction xs with
  | nil => simp at hmem
  | cons y t ih =>
    rw [jrtArr] at hst
    injection hst with h1 h2
    rcases List.mem_cons.mp hmem with hm | hm
    · subst hm
      cases hy : jrt x with
      | none =>
        rw [hy] at h1
        simp only [Option.getD_none] at h1
        rw [← h1] at hy
        simp [jrt] at hy
      | some w =>
        rw [hy] at h1
        simp only [Option.getD_some] at h1
        simp [h1]
    · exact ih h2 hm

theorem jrtArr_eq_map (xs : List Value) : jrtArr xs = xs.map (fun x => (jrt x).getD .vNull) := by
  induction xs with
  | nil => simp [jrtArr]
  | cons y t ih => simp [jrtArr, ih]

theorem jrtArr_stable_set (xs : List Value) (n : Nat) (v : Value)
    (hst : jrtArr xs = xs) (hv : jrt v = some v) : jrtArr (xs.set n v) = xs.set n v := by
  rw [jrtArr_eq_map] at hst ⊢
  rw [List.map_set, hst, hv]
  rfl

theorem jrtArr_stable_append (xs : List Value) (v : Value)
    (hst : jrtArr xs = xs) (hv : jrt v = some v) : jrtArr (xs ++ [v]) = xs ++ [v] := by
  rw [jrtArr_eq_map] at hst ⊢
  rw [List.map_append, hst]
  simp [hv]

theorem jrt_getElem_stable (root : Value) (p : PE) (c : Value)
    (hst : jrt root = some root) (hg : root.getElem p = some c) : jrt c = some c := by
  cases root with
  | vObj kvs =>
    cases p with
    | key s =>
      rw [jrt] at hst
      injection hst with h1
      injection h1 with h2
      exact jrtObj_entry_stable kvs s c h2 (olookup_mem kvs s c (by simpa [Value.getElem] using hg))
    | idx n => simp [Value.getElem] at hg
  | vArr xs =>
    cases p with
    | key s => simp [Value.getElem] at hg
    | idx n =>
      rw [jrt] at hst
      injection hst with h1
      injection h1 with h2
      exact jrtArr_stable_elem xs c h2 (List.get?_mem (by simpa [Value.getElem] using hg))
  | vUndef => simp [Value.getElem] at hg
  | vNull => simp [Value.getElem] at hg
  | vBool b => simp [Value.getElem] at hg
  | vNum n => simp [Value.getElem] at hg
  | vStr s => simp [Value.getElem] at hg

theorem jrt_setElem_stable (root : Value) (p : PE) (v out : Value)
    (hst : jrt root = some root) (hv : jrt v = some v)
    (hs : root.setElem p v = some out) : jrt out = some out := by
  cases root with
  | vObj kvs =>
    cases p with
    | key s =>
      rw [jrt] at hst
      injection hst with h1
      injection h1 with h2
      simp [Value.setElem] at hs
      subst hs
      rw [jrt, jrtObj_oset kvs s v h2 hv]
    | idx n => simp [Value.setElem] at hs
  | vArr xs =>
    cases p with
    | key s => simp [Value.setElem] at hs
    | idx n =>
      rw [jrt] at hst
      injection hst with h1
      injection h1 with h2
      rw [Value.setElem] at hs
      by_cases hlt : n < xs.length
      · rw [if_pos hlt] at hs
        injection hs with hs
        subst hs
        rw [jrt, jrtArr_stable_set xs n v h2 hv]
      · rw [if_neg hlt] at hs
        by_cases heq : n = xs.length
        · rw [if_pos heq] at hs
          injection hs with hs
          subst hs
          rw [jrt, jrtArr_stable_append xs v h2 hv]
        · rw [if_neg heq] at hs
          cases hs
  | vUndef => simp [Value.setElem] at hs
  | vNull => simp [Value.setElem] at hs
  | vBool b => simp [Value.setElem] at hs
  | vNum n => simp [Value.setElem] at hs
  | vStr s => simp [Value.setElem] at hs

theorem jrt_setAt_stable (path : List PE) : ∀ (root : Value) (last : PE) (v out : Value),
    jrt root = some root → jrt v = some v → setAt root path last v = some out →
    jrt out = some out := by
  induction path with
  | nil =>
    intro root last v out hst hv hs
    exact jrt_setElem_stable root last v out hst hv hs
  | cons p ps ih =>
    intro root last v out hst hv hs
    cases hg : root.getElem p with
    | none => simp only [setAt, hg] at hs; cases hs
    | some c =>
      cases hc : setAt c ps last v with
      | none => simp only [setAt, hg, hc] at hs; cases hs
      | some c2 =>
        simp only [setAt, hg, hc] at hs
        have hcs : jrt c = some c := jrt_getElem_stable root p c hst hg
        have hc2 : jrt c2 = some c2 := ih c last v c2 hcs hv hc
        exact jrt_setElem_stable root p c2 out hst hc2 hs

/-! ### History ledger lemmas -/

theorem pushSnap_length_le (opts : Opts) (l : List Obj) (x : Obj) (b : Nat)
    (hb : opts.historyBuffer = some b) (hl : l.length ≤ b) :
    (pushSnap opts l x).length ≤ b := by
  simp only [pushSnap, hb]
  by_cases h : l.length + 1 > b
  · simp [h]; omega
  · simp [h]; omega

theorem pushSnap_of_lt (opts : Opts) (l : List Obj) (x : Obj) (b : Nat)
    (hb : opts.historyBuffer = some b) (hl : l.length < b) :
    pushSnap opts l x = l ++ [x] := by
  simp only [pushSnap, hb]
  have : ¬(l.length + 1 > b) := by omega
  simp [this]

theorem pushSnap_none (opts : Opts) (l : List Obj) (x : Obj)
    (hb : opts.historyBuffer = none) : pushSnap opts l x = l ++ [x] := by
  simp [pushSnap, hb]

theorem pushSnap_at_cap (opts : Opts) (l : List Obj) (x : Obj) (b : Nat)
    (hb : opts.historyBuffer = some b) (hl : l.length = b) (hpos : 0 < b) :
    pushSnap opts l x = l.drop 1 ++ [x] := by
  simp only [pushSnap, hb]
  have hgt : l.length + 1 > b := by omega
  have h1 : 1 ≤ l.length := by omega
  simp [hgt, List.drop_append_of_le_length h1]

theorem pushSnap_mem (opts : Opts) (l : List Obj) (x p : Obj)
    (h : p ∈ pushSnap opts l x) : p ∈ l ∨ p = x := by
  have hsub : p ∈ l ++ [x] := by
    cases hb : opts.historyBuffer with
    | none =>
      simp only [pushSnap, hb] at h
      exact h
    | some b =>
      simp only [pushSnap, hb] at h
      by_cases hgt : (l ++ [x]).length > b
      · rw [if_pos hgt] at h
        exact List.mem_of_mem_drop h
      · rw [if_neg hgt] at h
        exact h
  rcases List.mem_append.mp hsub with h1 | h1
  · exact Or.inl h1
  · exact Or.inr (by simpa using h1)

/-! ### Proxy setter characterizations -/

theorem setTop_of_ok (s : Store) (f : String) (v : Value) (r : Rule)
    (hr : olookup s.schema f = some r) (hok : r.check s.opts.strict v = true) :
    setTop s f v =
      { store :=
          { s with
            stateObj := oset s.stateObj f v,
            undoH := if s.updateHistory then pushSnap s.opts s.undoH (jrtObj s.stateObj) else s.undoH,
            redoH := if s.updateHistory then [] else s.redoH },
        events := [.validateCall f v, .changeCbs f (s.subs.count f)],
        outcome := .committed } := by
  simp [setTop, hr, hok]

theorem setTop_of_reject (s : Store) (f : String) (v : Value) (r : Rule)
    (hr : olookup s.schema f = some r) (hok : r.check s.opts.strict v = false) :
    setTop s f v =
      { store :=
          { s with
            stateObj :=
              match olookup s.stateObj f with
              | some ov => if ov.truthy then oset (oset s.stateObj f v) f ov
                  else odel (oset s.stateObj f v) f
              | none => odel (oset s.stateObj f v) f },
        events := [.validateCall f v, .errorCbs],
        outcome := .rejected } := by
  simp [setTop, hr, hok]

theorem setTop_of_missing (s : Store) (f : String) (v : Value)
    (hr : olookup s.schema f = none) :
    setTop s f v =
      { store := { s with stateObj := oset s.stateObj f v },
        events := [.noSchema f],
        outcome := .crashed (.typeError "cannot destructure error of undefined") } := by
  simp [setTop, hr]

theorem setTop_committed_inv (s : Store) (f : String) (v : Value)
    (h : (setTop s f v).outcome = .committed) :
    ∃ r, olookup s.schema f = some r ∧ r.check s.opts.strict v = true := by
  cases hr : olookup s.schema f with
  | none => rw [setTop_of_missing s f v hr] at h; cases h
  | some r =>
    cases hok : r.check s.opts.strict v with
    | false => rw [setTop_of_reject s f v r hr hok] at h; cases h
    | true => exact ⟨r, rfl, hok⟩

theorem setTop_frame (s : Store) (f : String) (v : Value) :
    (setTop s f v).store.opts = s.opts ∧ (setTop s f v).store.schema = s.schema ∧
    (setTop s f v).store.subs = s.subs ∧ (setTop s f v).store.updateHistory = s.updateHistory := by
  cases hr : olookup s.schema f with
  | none => rw [setTop_of_missing s f v hr]; exact ⟨rfl, rfl, rfl, rfl⟩
  | some r =>
    cases hok : r.check s.opts.strict v with
    | false => rw [setTop_of_reject s f v r hr hok]; exact ⟨rfl, rfl, rfl, rfl⟩
    | true => rw [setTop_of_ok s f v r hr hok]; exact ⟨rfl, rfl, rfl, rfl⟩

theorem setTop_hist_of_flag_off (s : Store) (f : String) (v : Value)
    (hflag : s.updateHistory = false) :
    (setTop s f v).store.undoH = s.undoH ∧ (setTop s f v).store.redoH = s.redoH := by
  cases hr : olookup s.schema f with
  | none => rw [setTop_of_missing s f v hr]; exact ⟨rfl, rfl⟩
  | some r =>
    cases hok : r.check s.opts.strict v with
    | false => rw [setTop_of_reject s f v r hr hok]; exact ⟨rfl, rfl⟩
    | true => rw [setTop_of_ok s f v r hr hok]; simp [hflag]

theorem setNested_of_ok (s : Store) (b : String) (path : List PE) (last : PE) (v : Value)
    (bv parent bv1 : Value) (r : Rule)
    (hbv : olookup s.stateObj b = some bv) (hpar : getAt bv path = some parent)
    (hset : setAt bv path last v = some bv1)
    (hr : olookup s.schema b = some r) (hok : r.check s.opts.strict bv1 = true) :
    setNested s b path last v = some
      { store :=
          { s with
            stateObj := oset s.stateObj b bv1,
            undoH := if s.updateHistory then pushSnap s.opts s.undoH (jrtObj s.stateObj) else s.undoH,
            redoH := if s.updateHistory then [] else s.redoH },
        events := [.validateCall b bv1, .changeCbs b (s.subs.count b)],
        outcome := .committed } := by
  simp [setNested, hbv, hpar, hset, hr, hok]

theorem setNested_missing_shape (s : Store) (b : String) (path : List PE) (last : PE) (v : Value)
    (bv parent bv1 : Value)
    (hbv : olookup s.stateObj b = some bv) (hpar : getAt bv path = some parent)
    (hset : setAt bv path last v = some bv1)
    (hr : olookup s.schema b = none) :
    setNested s b path last v = some
      { store := { s with stateObj := oset s.stateObj b bv1 },
        events := [.noSchema b],
        outcome := .crashed (.typeError "cannot destructure error of undefined") } := by
  simp [setNested, hbv, hpar, hset, hr]

theorem setNested_reject_shape (s : Store) (b : String) (path : List PE) (last : PE) (v : Value)
    (bv parent bv1 : Value) (r : Rule)
    (hbv : olookup s.stateObj b = some bv) (hpar : getAt bv path = some parent)
    (hset : setAt bv path last v = some bv1)
    (hr : olookup s.schema b = some r) (hok : r.check s.opts.strict bv1 = false) :
    ∃ bvr, setNested s b path last v = some
      { store := { s with stateObj := oset s.stateObj b bvr },
        events := [.validateCall b bv1, .errorCbs],
        outcome := .rejected } := by
  cases hrev : setAt bv path last ((parent.getElem last).getD .vUndef) with
  | none => exact ⟨bv1, by simp [setNested, hbv, hpar, hset, hr, hok, hrev]⟩
  | some bv2 => exact ⟨bv2, by simp [setNested, hbv, hpar, hset, hr, hok, hrev]⟩

theorem doWrite_nest_cases (s : Store) (b : String) (path : List PE) (last : PE) (v : Value) :
    (doWrite s (.nest b path last v) = { store := s, events := [], outcome := .crashed (.typeError "navigation failed") } ∧ setNested s b path last v = none)
    ∨ ∃ res, setNested s b path last v = some res ∧ doWrite s (.nest b path last v) = res := by
  cases hsn : setNested s b path last v with
  | none => exact Or.inl ⟨by simp [doWrite, hsn], rfl⟩
  | some res => exact Or.inr ⟨res, rfl, by simp [doWrite, hsn]⟩

theorem setNested_committed_inv (s : Store) (b : String) (path : List PE) (last : PE) (v : Value)
    (res : WriteRes) (hsn : setNested s b path last v = some res)
    (h : res.outcome = .committed) :
    ∃ bv parent bv1 r, olookup s.stateObj b = some bv ∧ getAt bv path = some parent ∧
      setAt bv path last v = some bv1 ∧ olookup s.schema b = some r ∧
      r.check s.opts.strict bv1 = true := by
  cases hbv : olookup s.stateObj b with
  | none => simp [setNested, hbv] at hsn
  | some bv =>
    cases hpar : getAt bv path with
    | none => simp [setNested, hbv, hpar] at hsn
    | some parent =>
      cases hset : setAt bv path last v with
      | none => simp [setNested, hbv, hpar, hset] at hsn
      | some bv1 =>
        cases hr : olookup s.schema b with
        | none =>
          rw [setNested_missing_shape s b path last v bv parent bv1 hbv hpar hset hr] at hsn
          injection hsn with hsn
          rw [← hsn] at h
          cases h
        | some r =>
          cases hok : r.check s.opts.strict bv1 with
          | false =>
            obtain ⟨bvr, hshape⟩ := setNested_reject_shape s b path last v bv parent bv1 r hbv hpar hset hr hok
            rw [hshape] at hsn
            injection hsn with hsn
            rw [← hsn] at h
            cases h
          | true => exact ⟨bv, parent, bv1, r, rfl, hpar, hset, rfl, hok⟩

theorem doWrite_committed_hist (s : Store) (w : W)
    (h : (doWrite s w).outcome = .committed) :
    (doWrite s w).store.undoH =
        (if s.updateHistory then pushSnap s.opts s.undoH (jrtObj s.stateObj) else s.undoH) ∧
    (doWrite s w).store.redoH = (if s.updateHistory then [] else s.redoH) := by
  cases w with
  | top f v =>
    obtain ⟨r, hr, hok⟩ := setTop_committed_inv s f v h
    rw [show doWrite s (.top f v) = setTop s f v from rfl,
      setTop_of_ok s f v r hr hok]
    exact ⟨rfl, rfl⟩
  | nest b path last v =>
    rcases doWrite_nest_cases s b path last v with ⟨hdw, _⟩ | ⟨res, hsn, hdw⟩
    · rw [hdw] at h; cases h
    · rw [hdw] at h
      obtain ⟨bv, parent, bv1, r, hbv, hpar, hset, hr, hok⟩ :=
        setNested_committed_inv s b path last v res hsn h
      rw [setNested_of_ok s b path last v bv parent bv1 r hbv hpar hset hr hok] at hsn
      injection hsn with hsn
      rw [hdw, ← hsn]
      exact ⟨rfl, rfl⟩

theorem doWrite_frame (s : Store) (w : W) :
    (doWrite s w).store.opts = s.opts ∧ (doWrite s w).store.schema = s.schema ∧
    (doWrite s w).store.subs = s.subs ∧
    (doWrite s w).store.updateHistory = s.updateHistory := by
  cases w with
  | top f v => exact setTop_frame s f v
  | nest b path last v =>
    rcases doWrite_nest_cases s b path last v with ⟨hdw, _⟩ | ⟨res, hsn, hdw⟩
    · rw [hdw]; exact ⟨rfl, rfl, rfl, rfl⟩
    · rw [hdw]
      cases hbv : olookup s.stateObj b with
      | none => simp [setNested, hbv] at hsn
      | some bv =>
        cases hpar : getAt bv path with
        | none => simp [setNested, hbv, hpar] at hsn
        | some parent =>
          cases hset : setAt bv path last v with
          | none => simp [setNested, hbv, hpar, hset] at hsn
          | some bv1 =>
            cases hr : olookup s.schema b with
            | none =>
              rw [setNested_missing_shape s b path last v bv parent bv1 hbv hpar hset hr] at hsn
              injection hsn with hsn
              rw [← hsn]
              exact ⟨rfl, rfl, rfl, rfl⟩
            | some r =>
              cases hok : r.check s.opts.strict bv1 with
              | false =>
                obtain ⟨bvr, hshape⟩ := setNested_reject_shape s b path last v bv parent bv1 r hbv hpar hset hr hok
                rw [hshape] at hsn
                injection hsn with hsn
                rw [← hsn]
                exact ⟨rfl, rfl, rfl, rfl⟩
              | true =>
                rw [setNested_of_ok s b path last v bv parent bv1 r hbv hpar hset hr hok] at hsn
                injection hsn with hsn
                rw [← hsn]
                exact ⟨rfl, rfl, rfl, rfl⟩

/-! ### Replay loop lemmas -/

theorem replayLoop_frame (fields : List String) : ∀ (s : Store) (p : Obj),
    (replayLoop s fields p).1.opts = s.opts ∧ (replayLoop s fields p).1.schema = s.schema ∧
    (replayLoop s fields p).1.subs = s.subs ∧ (replayLoop s fields p).1.undoH = s.undoH ∧
    (replayLoop s fields p).1.redoH = s.redoH := by
  induction fields with
  | nil =>
    intro s p
    exact ⟨rfl, rfl, rfl, rfl, rfl⟩
  | cons f fs ih =>
    intro s p
    have hfr := setTop_frame { s with updateHistory := false } f ((olookup p f).getD .vUndef)
    have hh := setTop_hist_of_flag_off { s with updateHistory := false } f
      ((olookup p f).getD .vUndef) rfl
    cases ho : (setTop { s with updateHistory := false } f ((olookup p f).getD .vUndef)).outcome with
    | crashed e =>
      simp only [replayLoop, ho]
      exact ⟨hfr.1, hfr.2.1, hfr.2.2.1, hh.1, hh.2⟩
    | committed =>
      simp only [replayLoop, ho]
      have hrec := ih (setTop { s with updateHistory := false } f ((olookup p f).getD .vUndef)).store p
      exact ⟨hrec.1.trans hfr.1, hrec.2.1.trans hfr.2.1, hrec.2.2.1.trans hfr.2.2.1,
        hrec.2.2.2.1.trans hh.1, hrec.2.2.2.2.trans hh.2⟩
    | rejected =>
      simp only [replayLoop, ho]
      have hrec := ih (setTop { s with updateHistory := false } f ((olookup p f).getD .vUndef)).store p
      exact ⟨hrec.1.trans hfr.1, hrec.2.1.trans hfr.2.1, hrec.2.2.1.trans hfr.2.2.1,
        hrec.2.2.2.1.trans hh.1, hrec.2.2.2.2.trans hh.2⟩

theorem okeys_setAll (fields : List String) : ∀ (st : Obj) (p : Obj),
    (∀ f ∈ fields, f ∈ okeys st) → okeys (setAll st fields p) = okeys st := by
  induction fields with
  | nil => intro st p _; rfl
  | cons f fs ih =>
    intro st p hmem
    have hf : f ∈ okeys st := hmem f (List.mem_cons_self f fs)
    have hkeys : okeys (oset st f ((olookup p f).getD .vUndef)) = okeys st :=
      okeys_oset_of_mem st f _ hf
    have : setAll st (f :: fs) p = setAll (oset st f ((olookup p f).getD .vUndef)) fs p := rfl
    rw [this, ih _ p (fun g hg => by rw [hkeys]; exact hmem g (List.mem_cons_of_mem f hg)), hkeys]

theorem setAll_lookup_not_mem (fields : List String) : ∀ (st p : Obj) (f : String),
    f ∉ fields → olookup (setAll st fields p) f = olookup st f := by
  induction fields with
  | nil => intro st p f _; rfl
  | cons g fs ih =>
    intro st p f hf
    have hne : f ≠ g := fun h => hf (h ▸ List.mem_cons_self g fs)
    have : setAll st (g :: fs) p = setAll (oset st g ((olookup p g).getD .vUndef)) fs p := rfl
    rw [this, ih _ p f (fun h => hf (List.mem_cons_of_mem g h)),
      olookup_oset_ne st g f _ hne]

theorem setAll_lookup_mem (fields : List String) : ∀ (st p : Obj) (f : String),
    fields.Nodup → f ∈ fields →
    olookup (setAll st fields p) f = some ((olookup p f).getD .vUndef) := by
  induction fields with
  | nil => intro st p f _ h; simp at h
  | cons g fs ih =>
    intro st p f hnd hf
    rw [List.nodup_cons] at hnd
    have hstep : setAll st (g :: fs) p = setAll (oset st g ((olookup p g).getD .vUndef)) fs p := rfl
    rcases List.mem_cons.mp hf with h1 | h1
    · subst h1
      rw [hstep, setAll_lookup_not_mem fs _ p f hnd.1, olookup_oset_self]
    · rw [hstep, ih _ p f hnd.2 h1]

theorem setAll_self (st p : Obj) (hk : okeys st = okeys p) (hnd : (okeys p).Nodup) :
    setAll st (okeys p) p = p := by
  apply oext
  · rw [okeys_setAll (okeys p) st p (fun f hf => hk ▸ hf), hk]
  · rw [okeys_setAll (okeys p) st p (fun f hf => hk ▸ hf), hk]
    exact hnd
  · intro f
    by_cases hf : f ∈ okeys p
    · rw [setAll_lookup_mem (okeys p) st p f hnd hf]
      cases hp : olookup p f with
      | none =>
        exact absurd ((olookup_isSome_iff_mem p f).mpr hf) (by simp [hp])
      | some v => simp [hp]
    · rw [setAll_lookup_not_mem (okeys p) st p f hf,
        olookup_eq_none_of_not_mem st f (by rw [hk]; exact hf),
        olookup_eq_none_of_not_mem p f hf]

theorem replayLoop_ok (fields : List String) : ∀ (s : Store) (p : Obj),
    (∀ f ∈ fields, ∃ r v, olookup s.schema f = some r ∧ olookup p f = some v ∧
      r.check s.opts.strict v = true) →
    replayLoop s fields p =
      ({ s with stateObj := setAll s.stateObj fields p, updateHistory := true },
       replayEvents s.subs fields p, none) := by
  induction fields with
  | nil =>
    intro s p _
    rfl
  | cons f fs ih =>
    intro s p hv
    obtain ⟨r, v, hr, hpv, hok⟩ := hv f (List.mem_cons_self f fs)
    have hval : (olookup p f).getD .vUndef = v := by rw [hpv]; rfl
    have hr0 : olookup (Store.schema { s with updateHistory := false }) f = some r := hr
    have hok0 : r.check (Store.opts { s with updateHistory := false }).strict
        ((olookup p f).getD .vUndef) = true := by rw [hval]; exact hok
    have hset := setTop_of_ok { s with updateHistory := false } f
      ((olookup p f).getD .vUndef) r hr0 hok0
    have hloop : replayLoop s (f :: fs) p =
        (let wr := setTop { s with updateHistory := false } f ((olookup p f).getD .vUndef)
         match wr.outcome with
         | .crashed e => (wr.store, wr.events, some e)
         | _ =>
           let rl := replayLoop wr.store fs p
           (rl.1, wr.events ++ rl.2.1, rl.2.2)) := rfl
    rw [hloop, hset]
    simp only [Bool.false_eq_true, if_false]
    have hrec := ih { s with updateHistory := false, stateObj := oset s.stateObj f ((olookup p f).getD .vUndef) } p (fun g hg => hv g (List.mem_cons_of_mem f hg))
    rw [hrec]
    rfl

/-! ### Replay and undo/redo characterizations -/

theorem replayState_ok (s : Store) (p : Obj)
    (hk : okeys p = okeys s.stateObj) (hnd : (okeys p).Nodup)
    (hv : ReplayVals s p) :
    replayState s p =
      ({ s with stateObj := p, updateHistory := true },
       replayEvents s.subs (okeys p) p, none) := by
  have hcheck : (okeys s.stateObj).all (fun f => (okeys p).contains f) = true := by
    rw [hk]
    simp [List.all_eq_true]
  have hfields : ∀ f ∈ okeys p, ∃ r v, olookup s.schema f = some r ∧ olookup p f = some v ∧
      r.check s.opts.strict v = true := by
    intro f hf
    have hsome : (olookup p f).isSome = true := (olookup_isSome_iff_mem p f).mpr hf
    cases hpv : olookup p f with
    | none => rw [hpv] at hsome; cases hsome
    | some v =>
      obtain ⟨r, hr, hok⟩ := hv f v hpv
      exact ⟨r, v, hr, rfl, hok⟩
  have h1 : replayState s p = replayLoop s (okeys p) p := by
    simp only [replayState, hcheck, if_true]
  rw [h1, replayLoop_ok (okeys p) s p hfields, setAll_self s.stateObj p hk.symm hnd]

theorem undoFn_empty (s : Store) (h : s.undoH = []) : undoFn s = (s, [], none) := by
  simp only [undoFn, h, List.getLast?_nil]

theorem redoFn_empty (s : Store) (h : s.redoH = []) : redoFn s = (s, [], none) := by
  simp only [redoFn, h, List.getLast?_nil]

theorem undo_spec (s : Store) (us : List Obj) (p : Obj)
    (hU : s.undoH = us ++ [p]) (hflag : s.updateHistory = true)
    (hstable : jrtObj s.stateObj = s.stateObj)
    (hk : okeys p = okeys s.stateObj) (hnd : (okeys p).Nodup)
    (hv : ReplayVals s p) :
    undoFn s =
      ({ s with
          stateObj := p,
          undoH := us,
          redoH := pushSnap s.opts s.redoH s.stateObj,
          updateHistory := true },
       replayEvents s.subs (okeys p) p, none) := by
  have h1 : undoFn s = replayState (pushRedo { s with undoH := us } (jrtObj s.stateObj)) p := by
    simp only [undoFn, hU, List.getLast?_concat, List.dropLast_concat]
  have h2 : pushRedo { s with undoH := us } (jrtObj s.stateObj) =
      { s with undoH := us, redoH := pushSnap s.opts s.redoH s.stateObj } := by
    simp only [pushRedo, hstable, hflag, if_true]
  rw [h1, h2]
  exact replayState_ok _ p hk hnd hv

theorem redo_spec (s : Store) (us : List Obj) (p : Obj)
    (hR : s.redoH = us ++ [p]) (hflag : s.updateHistory = true)
    (hstable : jrtObj s.stateObj = s.stateObj)
    (hk : okeys p = okeys s.stateObj) (hnd : (okeys p).Nodup)
    (hv : ReplayVals s p) :
    redoFn s =
      ({ s with
          stateObj := p,
          redoH := us,
          undoH := pushSnap s.opts s.undoH s.stateObj,
          updateHistory := true },
       replayEvents s.subs (okeys p) p, none) := by
  have h1 : redoFn s = replayState (pushUndo { s with redoH := us } (jrtObj s.stateObj)) p := by
    simp only [redoFn, hR, List.getLast?_concat, List.dropLast_concat]
  have h2 : pushUndo { s with redoH := us } (jrtObj s.stateObj) =
      { s with redoH := us, undoH := pushSnap s.opts s.undoH s.stateObj } := by
    simp only [pushUndo, hstable, hflag, if_true]
  rw [h1, h2]
  exact replayState_ok _ p hk hnd hv

theorem pushSnap_eq_append_of (opts : Opts) (l : List Obj) (x : Obj)
    (h : ∀ m, opts.historyBuffer = some m → l.length < m) :
    pushSnap opts l x = l ++ [x] := by
  cases hb : opts.historyBuffer with
  | none => exact pushSnap_none opts l x hb
  | some b => exact pushSnap_of_lt opts l x b hb (h b hb)

theorem withinCap_some (opts : Opts) (n m : Nat) (h : withinCap opts n)
    (hm : opts.historyBuffer = some m) : n ≤ m := by
  simpa [withinCap, hm] using h

theorem undo_step_pack (T : Store) (us : List Obj) (p : Obj)
    (hU : T.undoH = us ++ [p]) (hflag : T.updateHistory = true)
    (hG : GoodSt T) (hsnaps : ∀ q ∈ T.undoH, SnapG T q)
    (hfit : ∀ m, T.opts.historyBuffer = some m → T.redoH.length < m) :
    undoStep T =
      { T with
        stateObj := p,
        undoH := us,
        redoH := T.redoH ++ [T.stateObj],
        updateHistory := true } ∧
    GoodSt (undoStep T) ∧
    (∀ q ∈ (undoStep T).undoH, SnapG (undoStep T) q) ∧
    okeys (undoStep T).stateObj = okeys T.stateObj := by
  have hp : SnapG T p := hsnaps p (by rw [hU]; simp)
  have hnd : (okeys p).Nodup := by rw [hp.1]; exact hG.2.1
  have hpush : pushSnap T.opts T.redoH T.stateObj = T.redoH ++ [T.stateObj] :=
    pushSnap_eq_append_of T.opts T.redoH T.stateObj hfit
  have hspec := undo_spec T us p hU hflag hG.1 hp.1 hnd hp.2.2
  have hstep : undoStep T =
      { T with
        stateObj := p,
        undoH := us,
        redoH := T.redoH ++ [T.stateObj],
        updateHistory := true } := by
    rw [undoStep, hspec, hpush]
  refine ⟨hstep, ?_, ?_, ?_⟩
  · rw [hstep]
    exact ⟨hp.2.1, hnd, hp.2.2⟩
  · rw [hstep]
    intro q hq
    have hq2 : SnapG T q := hsnaps q (by rw [hU]; exact List.mem_append_left [p] hq)
    exact ⟨hq2.1.trans hp.1.symm, hq2.2.1, hq2.2.2⟩
  · rw [hstep]
    exact hp.1

theorem redo_step_pack (T : Store) (us : List Obj) (q : Obj)
    (hR : T.redoH = us ++ [q]) (hflag : T.updateHistory = true)
    (hG : GoodSt T) (hq : SnapG T q)
    (hfit : ∀ m, T.opts.historyBuffer = some m → T.undoH.length < m) :
    redoStep T =
      { T with
        stateObj := q,
        redoH := us,
        undoH := T.undoH ++ [T.stateObj],
        updateHistory := true } ∧
    GoodSt (redoStep T) ∧
    okeys (redoStep T).stateObj = okeys T.stateObj := by
  have hnd : (okeys q).Nodup := by rw [hq.1]; exact hG.2.1
  have hpush : pushSnap T.opts T.undoH T.stateObj = T.undoH ++ [T.stateObj] :=
    pushSnap_eq_append_of T.opts T.undoH T.stateObj hfit
  have hspec := redo_spec T us q hR hflag hG.1 hq.1 hnd hq.2.2
  have hstep : redoStep T =
      { T with
        stateObj := q,
        redoH := us,
        undoH := T.undoH ++ [T.stateObj],
        updateHistory := true } := by
    rw [redoStep, hspec, hpush]
  refine ⟨hstep, ?_, ?_⟩
  · rw [hstep]
    exact ⟨hq.2.1, hnd, hq.2.2⟩
  · rw [hstep]
    exact hq.1

theorem pingpong (k : Nat) : ∀ (T : Store),
    GoodSt T → T.updateHistory = true →
    (∀ p ∈ T.undoH, SnapG T p) →
    k ≤ T.undoH.length →
    withinCap T.opts T.undoH.length →
    (∀ m, T.opts.historyBuffer = some m → T.redoH.length + k ≤ m) →
    redoStep^[k] (undoStep^[k] T) = T := by
  induction k with
  | zero => intro T _ _ _ _ _ _; simp
  | succ k ih =>
    intro T hG hflag hsnaps hk hcap hred
    have hlen : 0 < T.undoH.length := Nat.lt_of_lt_of_le (Nat.succ_pos k) hk
    rcases List.eq_nil_or_concat T.undoH with hnil | ⟨us, p, hU⟩
    · rw [hnil] at hlen; simp at hlen
    · rw [List.concat_eq_append] at hU
      have hfit : ∀ m, T.opts.historyBuffer = some m → T.redoH.length < m := by
        intro m hm
        have := hred m hm
        omega
      obtain ⟨hstep, hG1, hsnaps1, hkeys1⟩ := undo_step_pack T us p hU hflag hG hsnaps hfit
      have hp : SnapG T p := hsnaps p (by rw [hU]; simp)
      have hlenU : T.undoH.length = us.length + 1 := by rw [hU]; simp
      have hih := ih (undoStep T) hG1 (by rw [hstep]) (fun q hq => hsnaps1 q hq)
        (by rw [hstep]; simp only []; omega)
        (by
          rw [hstep]
          cases hb : T.opts.historyBuffer with
          | none => simp [withinCap, hb]
          | some m =>
            have := withinCap_some T.opts T.undoH.length m hcap hb
            simp only [withinCap, hb]
            omega)
        (by
          intro m hm
          rw [hstep] at *
          simp only [List.length_append, List.length_cons, List.length_nil] at *
          have := hred m hm
          omega)
      have heq1 : undoStep^[k + 1] T = undoStep^[k] (undoStep T) :=
        Function.iterate_succ_apply undoStep k T
      have heq2 : redoStep^[k + 1] (undoStep^[k] (undoStep T)) =
          redoStep (redoStep^[k] (undoStep^[k] (undoStep T))) :=
        Function.iterate_succ_apply' redoStep k _
      rw [heq1, heq2, hih]
      -- redoStep (undoStep T) = T
      have hfitU : ∀ m, (undoStep T).opts.historyBuffer = some m → (undoStep T).undoH.length < m := by
        intro m hm
        rw [hstep] at hm ⊢
        simp only [] at hm ⊢
        have h1 := withinCap_some T.opts T.undoH.length m hcap hm
        omega
      have hRT : (undoStep T).redoH = T.redoH ++ [T.stateObj] := by rw [hstep]
      have hqT : SnapG (undoStep T) T.stateObj := by
        rw [hstep]
        exact ⟨hp.1.symm, hG.1, hG.2.2⟩
      obtain ⟨hstep2, _, _⟩ := redo_step_pack (undoStep T) T.redoH T.stateObj hRT
        (by rw [hstep]) hG1 hqT hfitU
      rw [hstep2, hstep]
      apply Store.ext <;> simp [hflag, hU]

theorem undo_drain (j : Nat) : ∀ (T : Store),
    GoodSt T → T.updateHistory = true →
    (∀ p ∈ T.undoH, SnapG T p) →
    j ≤ T.undoH.length →
    withinCap T.opts T.undoH.length →
    (∀ m, T.opts.historyBuffer = some m → T.redoH.length + j ≤ m) →
    (undoStep^[j] T).undoH.length = T.undoH.length - j := by
  induction j with
  | zero => intro T _ _ _ _ _ _; simp
  | succ j ih =>
    intro T hG hflag hsnaps hj hcap hred
    have hlen : 0 < T.undoH.length := Nat.lt_of_lt_of_le (Nat.succ_pos j) hj
    rcases List.eq_nil_or_concat T.undoH with hnil | ⟨us, p, hU⟩
    · rw [hnil] at hlen; simp at hlen
    · rw [List.concat_eq_append] at hU
      have hfit : ∀ m, T.opts.historyBuffer = some m → T.redoH.length < m := by
        intro m hm
        have := hred m hm
        omega
      obtain ⟨hstep, hG1, hsnaps1, _⟩ := undo_step_pack T us p hU hflag hG hsnaps hfit
      have hlenU : T.undoH.length = us.length + 1 := by rw [hU]; simp
      have hih := ih (undoStep T) hG1 (by rw [hstep]) hsnaps1
        (by rw [hstep]; simp only []; omega)
        (by
          rw [hstep]
          cases hb : T.opts.historyBuffer with
          | none => simp [withinCap, hb]
          | some m =>
            have := withinCap_some T.opts T.undoH.length m hcap hb
            simp only [withinCap, hb]
            omega)
        (by
          intro m hm
          rw [hstep] at *
          simp only [List.length_append, List.length_cons, List.length_nil] at *
          have := hred m hm
          omega)
      have heq1 : undoStep^[j + 1] T = undoStep^[j] (undoStep T) :=
        Function.iterate_succ_apply undoStep j T
      rw [heq1, hih, hstep]
      simp only []
      omega

/-! ### Committed-write invariant preservation -/

theorem commit_core (s s1 : Store) (F : String) (V : Value) (r : Rule)
    (h1 : s1 =
      { s with
        stateObj := oset s.stateObj F V,
        undoH := pushSnap s.opts s.undoH (jrtObj s.stateObj),
        redoH := [] })
    (hG : GoodSt s) (hK : KeysEq s)
    (hsnaps : ∀ p ∈ s.undoH, SnapG s p)
    (hcap : withinCap s.opts s.undoH.length)
    (hr : olookup s.schema F = some r) (hok : r.check s.opts.strict V = true)
    (hV : jrt V = some V) :
    GoodSt s1 ∧ KeysEq s1 ∧ (∀ p ∈ s1.undoH, SnapG s1 p) ∧
    withinCap s1.opts s1.undoH.length ∧
    okeys s1.stateObj = okeys s.stateObj ∧ s1.opts = s.opts ∧
    s1.updateHistory = s.updateHistory ∧ s1.redoH = [] ∧
    s1.schema = s.schema ∧ s1.subs = s.subs := by
  have hFmem : F ∈ okeys s.stateObj := by
    rw [← olookup_isSome_iff_mem]
    have := hK F
    rw [this, hr]
    rfl
  have hkeys : okeys (oset s.stateObj F V) = okeys s.stateObj :=
    okeys_oset_of_mem s.stateObj F V hFmem
  have hstable1 : jrtObj (oset s.stateObj F V) = oset s.stateObj F V :=
    jrtObj_oset s.stateObj F V hG.1 hV
  have hvals1 : ∀ g vv, olookup (oset s.stateObj F V) g = some vv →
      ∃ rr, olookup s.schema g = some rr ∧ rr.check s.opts.strict vv = true := by
    intro g vv hg
    by_cases hgf : g = F
    · subst hgf
      rw [olookup_oset_self] at hg
      injection hg with hg
      subst hg
      exact ⟨r, hr, hok⟩
    · rw [olookup_oset_ne s.stateObj F g V hgf] at hg
      exact hG.2.2 g vv hg
  subst h1
  refine ⟨⟨hstable1, by rw [hkeys]; exact hG.2.1, hvals1⟩, ?_, ?_, ?_, hkeys, rfl, rfl, rfl, rfl, rfl⟩
  · intro g
    by_cases hgf : g = F
    · subst hgf
      simp only [olookup_oset_self, hr]
      rfl
    · simp only [olookup_oset_ne s.stateObj F g V hgf]
      exact hK g
  · intro p hp
    simp only [] at hp
    rcases pushSnap_mem s.opts s.undoH (jrtObj s.stateObj) p hp with h | h
    · have hq := hsnaps p h
      exact ⟨hq.1.trans hkeys.symm, hq.2.1, hq.2.2⟩
    · subst h
      rw [hG.1]
      exact ⟨hkeys.symm, hG.1, hG.2.2⟩
  · simp only []
    cases hb : s.opts.historyBuffer with
    | none => simp [withinCap, hb]
    | some m =>
      simp only [withinCap, hb]
      exact pushSnap_length_le s.opts s.undoH (jrtObj s.stateObj) m hb
        (withinCap_some s.opts s.undoH.length m hcap hb)

theorem commit_step_inv (s : Store) (w : W)
    (hc : (doWrite s w).outcome = .committed) (hflag : s.updateHistory = true)
    (hG : GoodSt s) (hK : KeysEq s)
    (hsnaps : ∀ p ∈ s.undoH, SnapG s p)
    (hcap : withinCap s.opts s.undoH.length) (hst : WStable w) :
    GoodSt (doWrite s w).store ∧ KeysEq (doWrite s w).store ∧
    (∀ p ∈ (doWrite s w).store.undoH, SnapG (doWrite s w).store p) ∧
    withinCap (doWrite s w).store.opts (doWrite s w).store.undoH.length ∧
    okeys (doWrite s w).store.stateObj = okeys s.stateObj ∧
    (doWrite s w).store.opts = s.opts ∧
    (doWrite s w).store.updateHistory = s.updateHistory ∧
    (doWrite s w).store.redoH = [] ∧
    (doWrite s w).store.schema = s.schema ∧ (doWrite s w).store.subs = s.subs := by
  cases w with
  | top f v =>
    obtain ⟨r, hr, hok⟩ := setTop_committed_inv s f v hc
    have h1 : (doWrite s (.top f v)).store =
        { s with
          stateObj := oset s.stateObj f v,
          undoH := pushSnap s.opts s.undoH (jrtObj s.stateObj),
          redoH := [] } := by
      rw [show doWrite s (.top f v) = setTop s f v from rfl, setTop_of_ok s f v r hr hok]
      simp [hflag]
    exact commit_core s _ f v r h1 hG hK hsnaps hcap hr hok hst
  | nest b path last v =>
    rcases doWrite_nest_cases s b path last v with ⟨hdw, _⟩ | ⟨res, hsn, hdw⟩
    · rw [hdw] at hc; cases hc
    · rw [hdw] at hc
      obtain ⟨bv, parent, bv1, r, hbv, hpar, hset, hr, hok⟩ :=
        setNested_committed_inv s b path last v res hsn hc
      have hbvStable : jrt bv = some bv :=
        jrtObj_entry_stable s.stateObj b bv hG.1 (olookup_mem s.stateObj b bv hbv)
      have hbv1Stable : jrt bv1 = some bv1 :=
        jrt_setAt_stable path bv last v bv1 hbvStable hst hset
      have h1 : (doWrite s (.nest b path last v)).store =
          { s with
            stateObj := oset s.stateObj b bv1,
            undoH := pushSnap s.opts s.undoH (jrtObj s.stateObj),
            redoH := [] } := by
        rw [hdw]
        rw [setNested_of_ok s b path last v bv parent bv1 r hbv hpar hset hr hok] at hsn
        injection hsn with hsn
        rw [← hsn]
        simp [hflag]
      exact commit_core s _ b bv1 r h1 hG hK hsnaps hcap hr hok hbv1Stable

theorem withinCap_zero (opts : Opts) : withinCap opts 0 := by
  cases hb : opts.historyBuffer with
  | none => simp [withinCap, hb]
  | some b => simp [withinCap, hb]

theorem undoStep_fixed (s : Store) (h : s.undoH = []) : undoStep s = s := by
  rw [undoStep, undoFn_empty s h]

theorem redoStep_fixed (s : Store) (h : s.redoH = []) : redoStep s = s := by
  rw [redoStep, redoFn_empty s h]

theorem commitSeq_inv (ws : List W) : ∀ (s t : Store), CommitSeq s ws t →
    GoodSt s → s.updateHistory = true → KeysEq s →
    (∀ p ∈ s.undoH, SnapG s p) → withinCap s.opts s.undoH.length →
    (∀ w ∈ ws, WStable w) →
    GoodSt t ∧ t.updateHistory = true ∧ KeysEq t ∧
    (∀ p ∈ t.undoH, SnapG t p) ∧ withinCap t.opts t.undoH.length ∧
    (ws = [] → t = s) ∧ (ws ≠ [] → t.redoH = []) := by
  induction ws with
  | nil =>
    intro s t hcs hG hflag hK hsnaps hcap _
    cases hcs
    exact ⟨hG, hflag, hK, hsnaps, hcap, fun _ => rfl, fun h => absurd rfl h⟩
  | cons w ws ih =>
    intro s t hcs hG hflag hK hsnaps hcap hst
    cases hcs with
    | cons _ _ _ _ hc hrest =>
      obtain ⟨hG1, hK1, hsnaps1, hcap1, _, _, hflag1, hredo1, _, _⟩ :=
        commit_step_inv s w hc hflag hG hK hsnaps hcap (hst w (List.mem_cons_self w ws))
      obtain ⟨hGt, hflagt, hKt, hsnapst, hcapt, hnilt, hnet⟩ :=
        ih (doWrite s w).store t hrest hG1 (hflag1.trans hflag) hK1 hsnaps1 hcap1
          (fun x hx => hst x (List.mem_cons_of_mem w hx))
      refine ⟨hGt, hflagt, hKt, hsnapst, hcapt, fun h => absurd h (List.cons_ne_nil w ws), fun _ => ?_⟩
      by_cases hws : ws = []
      · rw [hnilt hws, hredo1]
      · exact hnet hws

/-- Claim C4 (amended): a sequence of accepted writes of JSON-stable values
from a freshly registered, healthy store, followed by k undos and k redos
(k at most the number of writes), restores the store exactly — state,
schema and both ledgers. -/
theorem joistor_C4 (s0 sn : Store) (ws : List W) (k : Nat)
    (hundo : s0.undoH = []) (_hredo : s0.redoH = [])
    (hflag : s0.updateHistory = true)
    (hG : GoodSt s0) (hK : KeysEq s0)
    (hws : CommitSeq s0 ws sn) (hst : ∀ w ∈ ws, WStable w)
    (hk : k ≤ ws.length) :
    redoStep^[k] (undoStep^[k] sn) = sn := by
  have hsnaps0 : ∀ p ∈ s0.undoH, SnapG s0 p := by
    rw [hundo]; intro p hp; simp at hp
  have hcap0 : withinCap s0.opts s0.undoH.length := by
    rw [hundo]; exact withinCap_zero s0.opts
  obtain ⟨hGn, hflagn, _, hsnapsn, hcapn, hniln, hnen⟩ :=
    commitSeq_inv ws s0 sn hws hG hflag hK hsnaps0 hcap0 hst
  cases ws with
  | nil =>
    have hk0 : k = 0 := Nat.le_zero.mp hk
    subst hk0
    simp
  | cons w ws2 =>
    have hredon : sn.redoH = [] := hnen (by simp)
    by_cases hkm : k ≤ sn.undoH.length
    · exact pingpong k sn hGn hflagn hsnapsn hkm hcapn
        (fun m hm => by
          rw [hredon]
          simp only [List.length_nil, Nat.zero_add]
          have h1 := withinCap_some sn.opts sn.undoH.length m hcapn hm
          omega)
    · push_neg at hkm
      have hm := sn.undoH.length
      have hdrain := undo_drain sn.undoH.length sn hGn hflagn hsnapsn (Nat.le_refl _) hcapn
        (fun m hmm => by
          rw [hredon]
          simp only [List.length_nil, Nat.zero_add]
          exact withinCap_some sn.opts sn.undoH.length m hcapn hmm)
      have hXempty : (undoStep^[sn.undoH.length] sn).undoH = [] := by
        apply List.length_eq_zero.mp
        rw [hdrain]
        omega
      have hpp := pingpong sn.undoH.length sn hGn hflagn hsnapsn (Nat.le_refl _) hcapn
        (fun m hmm => by
          rw [hredon]
          simp only [List.length_nil, Nat.zero_add]
          exact withinCap_some sn.opts sn.undoH.length m hcapn hmm)
      have hsplit : k = (k - sn.undoH.length) + sn.undoH.length :=
        (Nat.sub_add_cancel (Nat.le_of_lt hkm)).symm
      have hUiter : undoStep^[k] sn = undoStep^[sn.undoH.length] sn := by
        rw [hsplit, Function.iterate_add_apply,
          Function.iterate_fixed (undoStep_fixed _ hXempty) (k - sn.undoH.length)]
      have hRiter : redoStep^[k] (undoStep^[sn.undoH.length] sn) = sn := by
        rw [hsplit, Function.iterate_add_apply, hpp,
          Function.iterate_fixed (redoStep_fixed sn hredon) (k - sn.undoH.length)]
      rw [hUiter, hRiter]

theorem replayEvents_mem (subs : List String) (fields : List String) (p : Obj) (f : String)
    (hf : f ∈ fields) :
    Event.validateCall f ((olookup p f).getD .vUndef) ∈ replayEvents subs fields p ∧
    Event.changeCbs f (subs.count f) ∈ replayEvents subs fields p := by
  induction fields with
  | nil => simp at hf
  | cons g fs ih =>
    rw [replayEvents]
    rcases List.mem_cons.mp hf with h | h
    · subst h
      constructor
      · exact List.mem_cons_self _ _
      · exact List.mem_cons_of_mem _ (List.mem_cons_self _ _)
    · have hih := ih h
      exact ⟨List.mem_cons_of_mem _ (List.mem_cons_of_mem _ hih.1),
        List.mem_cons_of_mem _ (List.mem_cons_of_mem _ hih.2)⟩

/-- Claim C2 (amended): the writes `undo()`/`redo()` perform while
restoring the popped snapshot push no new undo entries and do not clear
redo — the two ledgers change exactly by the operation's own pop and push
— but, contrary to the original claim, every restoring write DOES invoke
the validation function on the restored field value and DOES invoke the
field's onChange subscriber callbacks: the replay emits one
`validateCall` and one `changeCbs` event per restored field. -/
theorem joistor_C2 (s t : Store) (us ur : List Obj) (p q : Obj)
    (hsU : s.undoH = us ++ [p]) (hsflag : s.updateHistory = true)
    (hsG : GoodSt s) (hsp : SnapG s p)
    (hsfit : ∀ m, s.opts.historyBuffer = some m → s.redoH.length < m)
    (htR : t.redoH = ur ++ [q]) (htflag : t.updateHistory = true)
    (htG : GoodSt t) (htq : SnapG t q)
    (htfit : ∀ m, t.opts.historyBuffer = some m → t.undoH.length < m) :
    undoFn s =
      ({ s with
          stateObj := p,
          undoH := us,
          redoH := s.redoH ++ [s.stateObj],
          updateHistory := true },
       replayEvents s.subs (okeys p) p, none) ∧
    redoFn t =
      ({ t with
          stateObj := q,
          redoH := ur,
          undoH := t.undoH ++ [t.stateObj],
          updateHistory := true },
       replayEvents t.subs (okeys q) q, none) ∧
    (∀ f ∈ okeys p,
      Event.validateCall f ((olookup p f).getD .vUndef) ∈ replayEvents s.subs (okeys p) p ∧
      Event.changeCbs f (s.subs.count f) ∈ replayEvents s.subs (okeys p) p) := by
  have hsnd : (okeys p).Nodup := by rw [hsp.1]; exact hsG.2.1
  have htnd : (okeys q).Nodup := by rw [htq.1]; exact htG.2.1
  refine ⟨?_, ?_, fun f hf => replayEvents_mem s.subs (okeys p) p f hf⟩
  · rw [undo_spec s us p hsU hsflag hsG.1 hsp.1 hsnd hsp.2.2,
      pushSnap_eq_append_of s.opts s.redoH s.stateObj hsfit]
  · rw [redo_spec t ur q htR htflag htG.1 htq.1 htnd htq.2.2,
      pushSnap_eq_append_of t.opts t.undoH t.stateObj htfit]

/-- Claim C7: `undo()` with a non-empty undo ledger pops the most recent
undo entry, pushes the current full state onto the redo ledger and
replaces live state with the popped entry; `redo()` mirrors this on the
redo ledger; and each operation is a complete no-op (identical store, no
events, no throw) when its ledger is empty. -/
theorem joistor_C7 (s t : Store) (us ur : List Obj) (p q : Obj)
    (hsU : s.undoH = us ++ [p]) (hsflag : s.updateHistory = true)
    (hsG : GoodSt s) (hsp : SnapG s p)
    (hsfit : ∀ m, s.opts.historyBuffer = some m → s.redoH.length < m)
    (htR : t.redoH = ur ++ [q]) (htflag : t.updateHistory = true)
    (htG : GoodSt t) (htq : SnapG t q)
    (htfit : ∀ m, t.opts.historyBuffer = some m → t.undoH.length < m) :
    (∀ u : Store, u.undoH = [] → undoFn u = (u, [], none)) ∧
    (∀ u : Store, u.redoH = [] → redoFn u = (u, [], none)) ∧
    undoStep s =
      { s with
        stateObj := p,
        undoH := us,
        redoH := s.redoH ++ [s.stateObj],
        updateHistory := true } ∧
    redoStep t =
      { t with
        stateObj := q,
        redoH := ur,
        undoH := t.undoH ++ [t.stateObj],
        updateHistory := true } := by
  have hsnd : (okeys p).Nodup := by rw [hsp.1]; exact hsG.2.1
  have htnd : (okeys q).Nodup := by rw [htq.1]; exact htG.2.1
  refine ⟨fun u hu => undoFn_empty u hu, fun u hu => redoFn_empty u hu, ?_, ?_⟩
  · rw [undoStep, undo_spec s us p hsU hsflag hsG.1 hsp.1 hsnd hsp.2.2,
      pushSnap_eq_append_of s.opts s.redoH s.stateObj hsfit]
  · rw [redoStep, redo_spec t ur q htR htflag htG.1 htq.1 htnd htq.2.2,
      pushSnap_eq_append_of t.opts t.undoH t.stateObj htfit]

/-- Claim C3: every committed (validated, non-replay — that is, replay flag
up) write pushes exactly one pre-write snapshot onto the undo ledger —
growing it by one below capacity, keeping it at capacity with the oldest
entry evicted once full, and growing it without bound when no capacity was
configured — and leaves the redo ledger empty. -/
theorem joistor_C3 (s : Store) (w : W)
    (hc : (doWrite s w).outcome = .committed) (hflag : s.updateHistory = true) :
    (doWrite s w).store.undoH = pushSnap s.opts s.undoH (jrtObj s.stateObj) ∧
    (doWrite s w).store.redoH = [] ∧
    (s.opts.historyBuffer = none →
      (doWrite s w).store.undoH = s.undoH ++ [jrtObj s.stateObj]) ∧
    (∀ b, s.opts.historyBuffer = some b → s.undoH.length < b →
      (doWrite s w).store.undoH = s.undoH ++ [jrtObj s.stateObj] ∧
      (doWrite s w).store.undoH.length = s.undoH.length + 1) ∧
    (∀ b, s.opts.historyBuffer = some b → s.undoH.length = b → 0 < b →
      (doWrite s w).store.undoH = s.undoH.drop 1 ++ [jrtObj s.stateObj] ∧
      (doWrite s w).store.undoH.length = b) := by
  obtain ⟨h1, h2⟩ := doWrite_committed_hist s w hc
  rw [hflag] at h1 h2
  simp only [if_true] at h1 h2
  refine ⟨h1, h2, ?_, ?_, ?_⟩
  · intro hb
    rw [h1, pushSnap_none s.opts s.undoH (jrtObj s.stateObj) hb]
  · intro b hb hlt
    rw [h1, pushSnap_of_lt s.opts s.undoH (jrtObj s.stateObj) b hb hlt]
    exact ⟨rfl, by simp⟩
  · intro b hb heq hpos
    rw [h1, pushSnap_at_cap s.opts s.undoH (jrtObj s.stateObj) b hb heq hpos]
    refine ⟨rfl, ?_⟩
    simp [List.length_drop, heq]
    omega

theorem replayVals_singleton (s : Store) (k : String) (v : Value) (r : Rule)
    (hr : olookup s.schema k = some r) (hok : r.check s.opts.strict v = true) :
    ReplayVals s [(k, v)] := by
  intro f w h
  by_cases hk : k = f
  · subst hk
    simp [olookup] at h
    subst h
    exact ⟨r, hr, hok⟩
  · simp [olookup, hk] at h

/-- Witness for claim C3 at a concrete committed write. -/
theorem joistor_C3_witness :
    (doWrite uStore (.top "u" (.vNum 7))).outcome = .committed ∧
    uStore.updateHistory = true ∧
    (doWrite uStore (.top "u" (.vNum 7))).store.undoH = [[("u", .vNum 5)]] ∧
    (doWrite uStore (.top "u" (.vNum 7))).store.redoH = [] := by
  have h := joistor_C3 uStore (.top "u" (.vNum 7)) rfl rfl
  obtain ⟨-, h2, -, h4, -⟩ := h
  obtain ⟨h4a, -⟩ := h4 20 rfl (by rw [show uStore.undoH.length = 0 from rfl]; omega)
  refine ⟨rfl, rfl, ?_, h2⟩
  rw [h4a]
  rfl

theorem keysEq_of_okeys (s : Store) (h : okeys s.stateObj = okeys s.schema) : KeysEq s := by
  intro f
  rw [Bool.eq_iff_iff, olookup_isSome_iff_mem, olookup_isSome_iff_mem, h]

theorem goodSt_uStore : GoodSt uStore :=
  ⟨rfl, by rw [show okeys uStore.stateObj = ["u"] from rfl]; simp,
   replayVals_singleton uStore "u" (.vNum 5) ruleNum rfl rfl⟩

theorem goodSt_uStore1 : GoodSt uStore1 :=
  ⟨rfl, by rw [show okeys uStore1.stateObj = ["u"] from rfl]; simp,
   replayVals_singleton uStore1 "u" (.vNum 7) ruleNum rfl rfl⟩

theorem goodSt_uStore2 : GoodSt uStore2 :=
  ⟨rfl, by rw [show okeys uStore2.stateObj = ["u"] from rfl]; simp,
   replayVals_singleton uStore2 "u" (.vNum 5) ruleNum rfl rfl⟩

theorem snapG_uStore1 : SnapG uStore1 [("u", .vNum 5)] :=
  ⟨rfl, rfl, replayVals_singleton uStore1 "u" (.vNum 5) ruleNum rfl rfl⟩

theorem snapG_uStore2 : SnapG uStore2 [("u", .vNum 7)] :=
  ⟨rfl, rfl, replayVals_singleton uStore2 "u" (.vNum 7) ruleNum rfl rfl⟩

theorem fit_uStore1 : ∀ m, uStore1.opts.historyBuffer = some m → uStore1.redoH.length < m := by
  intro m hm
  rw [show uStore1.opts.historyBuffer = some 20 from rfl] at hm
  injection hm with hm
  rw [show uStore1.redoH.length = 0 from rfl]
  omega

theorem fit_uStore2 : ∀ m, uStore2.opts.historyBuffer = some m → uStore2.undoH.length < m := by
  intro m hm
  rw [show uStore2.opts.historyBuffer = some 20 from rfl] at hm
  injection hm with hm
  rw [show uStore2.undoH.length = 0 from rfl]
  omega

/-- Witness for claim C2 at a concrete store: one registered numeric field,
one committed write, then `undo()`. -/
theorem joistor_C2_witness :
    uStore1.undoH = [] ++ [[("u", .vNum 5)]] ∧ uStore1.updateHistory = true ∧
    (undoFn uStore1).2.2 = none ∧ (undoFn uStore1).1.undoH = [] ∧
    (undoFn uStore1).1.redoH = [[("u", .vNum 7)]] ∧
    (undoFn uStore1).1.stateObj = [("u", .vNum 5)] := by
  have h := joistor_C2 uStore1 uStore2 [] [] [("u", .vNum 5)] [("u", .vNum 7)]
    rfl rfl goodSt_uStore1 snapG_uStore1 fit_uStore1
    rfl rfl goodSt_uStore2 snapG_uStore2 fit_uStore2
  refine ⟨rfl, rfl, ?_, ?_, ?_, ?_⟩ <;> (rw [h.1]; try rfl)

/-- Witness for claim C7 at the same concrete store (undo side) and its
undone successor (redo side). -/
theorem joistor_C7_witness :
    uStore1.undoH = [] ++ [[("u", .vNum 5)]] ∧ uStore2.redoH = [] ++ [[("u", .vNum 7)]] ∧
    (undoStep uStore1).stateObj = [("u", .vNum 5)] ∧
    (undoStep uStore1).undoH = [] ∧
    (undoStep uStore1).redoH = [[("u", .vNum 7)]] ∧
    (redoStep uStore2).stateObj = [("u", .vNum 7)] ∧
    (redoStep uStore2).redoH = [] ∧
    (redoStep uStore2).undoH = [[("u", .vNum 5)]] := by
  have h := joistor_C7 uStore1 uStore2 [] [] [("u", .vNum 5)] [("u", .vNum 7)]
    rfl rfl goodSt_uStore1 snapG_uStore1 fit_uStore1
    rfl rfl goodSt_uStore2 snapG_uStore2 fit_uStore2
  refine ⟨rfl, rfl, ?_, ?_, ?_, ?_, ?_, ?_⟩ <;> first
    | (rw [h.2.2.1]; try rfl)
    | (rw [h.2.2.2]; try rfl)

/-- Counterexample to claim C2 as it stands: during this `undo()`, the
replay write to field `system` invokes the validation function (the
`validateCall` event) and invokes the one registered onChange subscriber
(the `changeCbs _ 1` event). -/
theorem joistor_C2_counterexample :
    (undoFn sysStore1).2.1 =
      [.validateCall "system" (.vObj [("id", .vNum 0), ("name", .vStr "")]),
       .changeCbs "system" 1] ∧
    (undoFn sysStore1).2.2 = none ∧
    Event.validateCall "system" (.vObj [("id", .vNum 0), ("name", .vStr "")]) ∈
      (undoFn sysStore1).2.1 ∧
    Event.changeCbs "system" 1 ∈ (undoFn sysStore1).2.1 := by
  refine ⟨rfl, rfl, ?_, ?_⟩ <;>
    · rw [show (undoFn sysStore1).2.1 =
        [Event.validateCall "system" (.vObj [("id", .vNum 0), ("name", .vStr "")]),
         Event.changeCbs "system" 1] from rfl]
      simp

/-- Witness for claim C4: one committed write, one undo, one redo. -/
theorem joistor_C4_witness :
    uStore.undoH = [] ∧ uStore.redoH = [] ∧ uStore.updateHistory = true ∧
    CommitSeq uStore [W.top "u" (.vNum 7)] uStore1 ∧ (1 : Nat) ≤ 1 ∧
    redoStep^[1] (undoStep^[1] uStore1) = uStore1 := by
  have hcs : CommitSeq uStore [W.top "u" (.vNum 7)] uStore1 :=
    CommitSeq.cons uStore (W.top "u" (.vNum 7)) [] uStore1 rfl (CommitSeq.nil uStore1)
  refine ⟨rfl, rfl, rfl, hcs, Nat.le_refl 1, ?_⟩
  exact joistor_C4 uStore uStore1 [W.top "u" (.vNum 7)] 1 rfl rfl rfl goodSt_uStore
    (keysEq_of_okeys uStore rfl) hcs
    (by intro w hw; rw [List.mem_singleton] at hw; subst hw; exact rfl)
    (Nat.le_refl 1)

/-- Counterexample to claim C4 as it stands: one accepted write of
`{ a: undefined }` into a permissive field, then `undo()` and `redo()`.
The JSON deep copy in the ledgers drops the `undefined`-valued key, so the
state after undo+redo is `{ u: {} }`, not the state after the write. -/
theorem joistor_C4_counterexample :
    undefStore.stateObj = [("u", .vObj [("a", .vUndef)])] ∧
    undefStore.undoH = [[("u", .vObj [])]] ∧ undefStore.redoH = [] ∧
    (redoStep (undoStep undefStore)).stateObj = [("u", .vObj [])] ∧
    (redoStep (undoStep undefStore)).stateObj ≠ undefStore.stateObj := by
  refine ⟨rfl, rfl, rfl, rfl, ?_⟩
  intro h
  rw [show (redoStep (undoStep undefStore)).stateObj = [("u", Value.vObj [])] from rfl,
    show undefStore.stateObj = [("u", .vObj [("a", .vUndef)])] from rfl] at h
  simp at h

/-- Claim C1 (code bug, evaluated at the failing input): the registered
field `cnt` (rule: numbers) holds the falsy previous value `0`; the
rejected write `state.cnt = "bad"` is rolled back by `if (oldValue)`,
which treats the existing falsy value as absent and DELETES the field —
the state afterwards is `{}`, not the pre-write `{ cnt: 0 }` that claim C1
requires. -/
theorem joistor_C1 :
    olookup cntStore.stateObj "cnt" = some (.vNum 0) ∧
    olookup cntStore.schema "cnt" = some ruleNum ∧
    (setTop cntStore "cnt" (.vStr "bad")).outcome = .rejected ∧
    (setTop cntStore "cnt" (.vStr "bad")).store.stateObj = [] ∧
    (setTop cntStore "cnt" (.vStr "bad")).store.undoH = [] ∧
    (setTop cntStore "cnt" (.vStr "bad")).store.redoH = [] :=
  ⟨rfl, rfl, rfl, rfl, rfl, rfl⟩

/-- Claim C5 (code bug, evaluated at the failing input): a write to the
never-registered field name `unknown` logs `No schema` and returns
`undefined` from `validate`, whose destructuring throws a `TypeError`
after the speculative write was applied — so the rule engine is indeed not
consulted (no `validateCall` event), but the write is NOT recovered as a
no-op: the state gains the key `unknown` and the exception escapes to the
caller (only schema and history are left unchanged). -/
theorem joistor_C5 :
    olookup cntStore.schema "unknown" = none ∧
    (setTop cntStore "unknown" (.vNum 1)).events = [.noSchema "unknown"] ∧
    (setTop cntStore "unknown" (.vNum 1)).outcome =
      .crashed (.typeError "cannot destructure error of undefined") ∧
    (setTop cntStore "unknown" (.vNum 1)).store.stateObj =
      [("cnt", .vNum 0), ("unknown", .vNum 1)] ∧
    (setTop cntStore "unknown" (.vNum 1)).store.schema = cntStore.schema ∧
    (setTop cntStore "unknown" (.vNum 1)).store.undoH = [] ∧
    (setTop cntStore "unknown" (.vNum 1)).store.redoH = [] :=
  ⟨rfl, rfl, rfl, rfl, rfl, rfl, rfl⟩

/-- Claim C8 (code bug, evaluated at the failing input): the live state has
fields `{f}` while the popped snapshot has fields `{f, g}` — not equal —
yet `updateUndoRedoState` only checks that current fields are INCLUDED in
snapshot fields, so instead of aborting it restores `f`, then crashes with
a `TypeError` at the unregistered field `g`, leaving `g` in the state (the
registered-field set changed as a side effect of replay) and the replay
flag stuck down. -/
theorem joistor_C8 :
    okeys mismatchStore.stateObj = ["f"] ∧
    mismatchStore.undoH = [[("f", .vNum 1), ("g", .vNum 2)]] ∧
    okeys mismatchStore.schema = ["f"] ∧
    (undoFn mismatchStore).2.2 =
      some (.typeError "cannot destructure error of undefined") ∧
    olookup (undoFn mismatchStore).1.stateObj "f" = some (.vNum 1) ∧
    olookup (undoFn mismatchStore).1.stateObj "g" = some (.vNum 2) ∧
    olookup (undoFn mismatchStore).1.schema "g" = none ∧
    (undoFn mismatchStore).1.updateHistory = false :=
  ⟨rfl, rfl, rfl, rfl, rfl, rfl, rfl, rfl⟩

theorem pushRedo_fields (s : Store) (y : Obj) :
    (pushRedo s y).opts = s.opts ∧ (pushRedo s y).undoH = s.undoH ∧
    (pushRedo s y).stateObj = s.stateObj ∧ (pushRedo s y).schema = s.schema ∧
    ((pushRedo s y).redoH = s.redoH ∨ (pushRedo s y).redoH = pushSnap s.opts s.redoH y) := by
  rw [pushRedo]
  by_cases hf : s.updateHistory = true <;> simp [hf]

theorem pushUndo_fields (s : Store) (y : Obj) :
    (pushUndo s y).opts = s.opts ∧ (pushUndo s y).redoH = s.redoH ∧
    (pushUndo s y).stateObj = s.stateObj ∧ (pushUndo s y).schema = s.schema ∧
    ((pushUndo s y).undoH = s.undoH ∨ (pushUndo s y).undoH = pushSnap s.opts s.undoH y) := by
  rw [pushUndo]
  by_cases hf : s.updateHistory = true <;> simp [hf]

theorem doWrite_hist_cases (s : Store) (w : W) :
    ((doWrite s w).store.undoH = s.undoH ∨
      (doWrite s w).store.undoH = pushSnap s.opts s.undoH (jrtObj s.stateObj)) ∧
    ((doWrite s w).store.redoH = s.redoH ∨ (doWrite s w).store.redoH = []) := by
  cases w with
  | top f v =>
    rw [show doWrite s (.top f v) = setTop s f v from rfl]
    cases hr : olookup s.schema f with
    | none => rw [setTop_of_missing s f v hr]; exact ⟨Or.inl rfl, Or.inl rfl⟩
    | some r =>
      cases hok : r.check s.opts.strict v with
      | false => rw [setTop_of_reject s f v r hr hok]; exact ⟨Or.inl rfl, Or.inl rfl⟩
      | true =>
        rw [setTop_of_ok s f v r hr hok]
        by_cases hf : s.updateHistory = true <;> simp [hf]
  | nest b path last v =>
    rcases doWrite_nest_cases s b path last v with ⟨hdw, _⟩ | ⟨res, hsn, hdw⟩
    · rw [hdw]; exact ⟨Or.inl rfl, Or.inl rfl⟩
    · rw [hdw]
      cases hbv : olookup s.stateObj b with
      | none => simp [setNested, hbv] at hsn
      | some bv =>
        cases hpar : getAt bv path with
        | none => simp [setNested, hbv, hpar] at hsn
        | some parent =>
          cases hset : setAt bv path last v with
          | none => simp [setNested, hbv, hpar, hset] at hsn
          | some bv1 =>
            cases hr : olookup s.schema b with
            | none =>
              rw [setNested_missing_shape s b path last v bv parent bv1 hbv hpar hset hr] at hsn
              injection hsn with hsn
              rw [← hsn]
              exact ⟨Or.inl rfl, Or.inl rfl⟩
            | some r =>
              cases hok : r.check s.opts.strict bv1 with
              | false =>
                obtain ⟨bvr, hshape⟩ :=
                  setNested_reject_shape s b path last v bv parent bv1 r hbv hpar hset hr hok
                rw [hshape] at hsn
                injection hsn with hsn
                rw [← hsn]
                exact ⟨Or.inl rfl, Or.inl rfl⟩
              | true =>
                rw [setNested_of_ok s b path last v bv parent bv1 r hbv hpar hset hr hok] at hsn
                injection hsn with hsn
                rw [← hsn]
                by_cases hf : s.updateHistory = true <;> simp [hf]

theorem replayState_frame (s : Store) (p : Obj) :
    (replayState s p).1.opts = s.opts ∧ (replayState s p).1.schema = s.schema ∧
    (replayState s p).1.subs = s.subs ∧
    (replayState s p).1.undoH = s.undoH ∧ (replayState s p).1.redoH = s.redoH := by
  by_cases hc : (okeys s.stateObj).all (fun f => (okeys p).contains f) = true
  · have h1 : replayState s p = replayLoop s (okeys p) p := by
      simp only [replayState, hc, if_true]
    rw [h1]
    exact replayLoop_frame (okeys p) s p
  · have h1 : replayState s p =
        (s, [], some (.jsError "New state fields are not the same as old state fields")) := by
      simp only [replayState]
      rw [if_neg hc]
    rw [h1]
    exact ⟨rfl, rfl, rfl, rfl, rfl⟩

theorem register_hist (s : Store) (so : List (String × Rule)) (sto : Obj) :
    (register s so sto).opts = s.opts ∧ (register s so sto).undoH = s.undoH ∧
    (register s so sto).redoH = s.redoH := by
  cases so with
  | nil => exact ⟨rfl, rfl, rfl⟩
  | cons hd rest =>
    obtain ⟨f, r⟩ := hd
    have hlk : olookup ((f, r) :: rest) f = some r := by simp [olookup]
    have h1 : register s ((f, r) :: rest) sto =
        { (setTop { s with updateHistory := false, schema := oset s.schema f r } f
            ((olookup sto f).getD .vUndef)).store with updateHistory := true } := by
      simp only [register, hlk]
    rw [h1]
    have hfr := setTop_frame { s with updateHistory := false, schema := oset s.schema f r } f
      ((olookup sto f).getD .vUndef)
    have hh := setTop_hist_of_flag_off { s with updateHistory := false, schema := oset s.schema f r } f
      ((olookup sto f).getD .vUndef) rfl
    exact ⟨hfr.1, hh.1, hh.2⟩

theorem undoFn_caps (s : Store) (b : Nat) (hb : s.opts.historyBuffer = some b)
    (h1 : s.undoH.length ≤ b) (h2 : s.redoH.length ≤ b) :
    (undoFn s).1.opts = s.opts ∧ (undoFn s).1.undoH.length ≤ b ∧
    (undoFn s).1.redoH.length ≤ b := by
  cases hL : s.undoH.getLast? with
  | none =>
    simp only [undoFn, hL]
    exact ⟨trivial, h1, h2⟩
  | some p =>
    simp only [undoFn, hL]
    obtain ⟨ho, hsc, hsb, hu, hr⟩ :=
      replayState_frame (pushRedo { s with undoH := s.undoH.dropLast } (jrtObj s.stateObj)) p
    obtain ⟨po, pu, pst, psc, pr⟩ :=
      pushRedo_fields { s with undoH := s.undoH.dropLast } (jrtObj s.stateObj)
    refine ⟨ho.trans po, ?_, ?_⟩
    · rw [hu, pu]
      simp only []
      calc s.undoH.dropLast.length ≤ s.undoH.length := by
            rw [List.length_dropLast]; omega
        _ ≤ b := h1
    · rw [hr]
      rcases pr with hcase | hcase
      · rw [hcase]; exact h2
      · rw [hcase]
        exact pushSnap_length_le s.opts s.redoH (jrtObj s.stateObj) b hb h2

theorem redoFn_caps (s : Store) (b : Nat) (hb : s.opts.historyBuffer = some b)
    (h1 : s.undoH.length ≤ b) (h2 : s.redoH.length ≤ b) :
    (redoFn s).1.opts = s.opts ∧ (redoFn s).1.undoH.length ≤ b ∧
    (redoFn s).1.redoH.length ≤ b := by
  cases hL : s.redoH.getLast? with
  | none =>
    simp only [redoFn, hL]
    exact ⟨trivial, h1, h2⟩
  | some p =>
    simp only [redoFn, hL]
    obtain ⟨ho, hsc, hsb, hu, hr⟩ :=
      replayState_frame (pushUndo { s with redoH := s.redoH.dropLast } (jrtObj s.stateObj)) p
    obtain ⟨po, pu, pst, psc, pr⟩ :=
      pushUndo_fields { s with redoH := s.redoH.dropLast } (jrtObj s.stateObj)
    refine ⟨ho.trans po, ?_, ?_⟩
    · rw [hu]
      rcases pr with hcase | hcase
      · rw [hcase]; exact h1
      · rw [hcase]
        exact pushSnap_length_le s.opts s.undoH (jrtObj s.stateObj) b hb h1
    · rw [hr, pu]
      simp only []
      calc s.redoH.dropLast.length ≤ s.redoH.length := by
            rw [List.length_dropLast]; omega
        _ ≤ b := h2

theorem applyOp_caps (s : Store) (op : Op) (b : Nat) (hb : s.opts.historyBuffer = some b)
    (h1 : s.undoH.length ≤ b) (h2 : s.redoH.length ≤ b) :
    (applyOp s op).opts = s.opts ∧ (applyOp s op).undoH.length ≤ b ∧
    (applyOp s op).redoH.length ≤ b := by
  cases op with
  | reg so sto =>
    obtain ⟨ho, hu, hr⟩ := register_hist s so sto
    exact ⟨ho, by rw [show (applyOp s (.reg so sto)).undoH = (register s so sto).undoH from rfl, hu]; exact h1,
      by rw [show (applyOp s (.reg so sto)).redoH = (register s so sto).redoH from rfl, hr]; exact h2⟩
  | unreg f => exact ⟨rfl, h1, h2⟩
  | write w =>
    obtain ⟨hcu, hcr⟩ := doWrite_hist_cases s w
    obtain ⟨hfo, -, -, -⟩ := doWrite_frame s w
    refine ⟨hfo, ?_, ?_⟩
    · rcases hcu with hcase | hcase
      · rw [show (applyOp s (.write w)).undoH = (doWrite s w).store.undoH from rfl, hcase]
        exact h1
      · rw [show (applyOp s (.write w)).undoH = (doWrite s w).store.undoH from rfl, hcase]
        exact pushSnap_length_le s.opts s.undoH (jrtObj s.stateObj) b hb h1
    · rcases hcr with hcase | hcase
      · rw [show (applyOp s (.write w)).redoH = (doWrite s w).store.redoH from rfl, hcase]
        exact h2
      · rw [show (applyOp s (.write w)).redoH = (doWrite s w).store.redoH from rfl, hcase]
        simp
  | subscribe p => exact ⟨rfl, h1, h2⟩
  | undoOp => exact undoFn_caps s b hb h1 h2
  | redoOp => exact redoFn_caps s b hb h1 h2

theorem runOps_caps (ops : List Op) : ∀ (s : Store) (b : Nat),
    s.opts.historyBuffer = some b → s.undoH.length ≤ b → s.redoH.length ≤ b →
    (runOps s ops).undoH.length ≤ b ∧ (runOps s ops).redoH.length ≤ b := by
  induction ops with
  | nil => intro s b _ h1 h2; exact ⟨h1, h2⟩
  | cons op ops ih =>
    intro s b hb h1 h2
    obtain ⟨ho, hu, hr⟩ := applyOp_caps s op b hb h1 h2
    have hstep : runOps s (op :: ops) = runOps (applyOp s op) ops := rfl
    rw [hstep]
    exact ih (applyOp s op) b (ho.symm ▸ hb) hu hr

/-- Claim C6 (amended): when the options object explicitly carries
`historyBuffer = b`, every sequence of public operations keeps both
ledgers at length at most `b`; and the advertised default of 20 is the
`historyBuffer` of the options object used when `Joistor()` is called with
no argument — but it applies ONLY then: a caller-supplied options object
omitting `historyBuffer` (see the counterexample) leaves the ledgers
unbounded. -/
theorem joistor_C6 (opts : Opts) (b : Nat) (ops : List Op)
    (hb : opts.historyBuffer = some b) :
    (runOps (Joistor opts) ops).undoH.length ≤ b ∧
    (runOps (Joistor opts) ops).redoH.length ≤ b ∧
    defaultOpts.historyBuffer = some 20 := by
  obtain ⟨hu, hr⟩ := runOps_caps ops (Joistor opts) b hb (by simp [Joistor]) (by simp [Joistor])
  exact ⟨hu, hr, rfl⟩

/-- Witness for claim C6 at a concrete run: register, one write, one undo
under the default options. -/
theorem joistor_C6_witness :
    defaultOpts.historyBuffer = some 20 ∧
    (runOps (Joistor defaultOpts)
      [.reg [("u", ruleNum)] [("u", .vNum 5)], .write (.top "u" (.vNum 7)), .undoOp]).undoH.length ≤ 20 ∧
    (runOps (Joistor defaultOpts)
      [.reg [("u", ruleNum)] [("u", .vNum 5)], .write (.top "u" (.vNum 7)), .undoOp]).redoH.length ≤ 20 := by
  have h := joistor_C6 defaultOpts 20
    [.reg [("u", ruleNum)] [("u", .vNum 5)], .write (.top "u" (.vNum 7)), .undoOp] rfl
  exact ⟨rfl, h.1, h.2.1⟩

/-- Counterexample to claim C6 as it stands: `Joistor({ errorLog: false })`
passes an options object without `historyBuffer`; the eviction comparison
`length > undefined` is always false, so twenty-one accepted writes leave
the undo ledger at length 21, above the advertised default bound of 20. -/
theorem joistor_C6_counterexample :
    noCapStore.opts.historyBuffer = none ∧
    (runOps noCapStore writes21).undoH.length = 21 ∧
    20 < (runOps noCapStore writes21).undoH.length := by
  refine ⟨rfl, rfl, ?_⟩
  rw [show (runOps noCapStore writes21).undoH.length = 21 from rfl]
  omega

theorem keysEq_transfer (s1 s : Store) (hsch : s1.schema = s.schema)
    (hkeys : okeys s1.stateObj = okeys s.stateObj) (hK : KeysEq s) : KeysEq s1 := by
  intro g
  have h1 : (olookup s1.stateObj g).isSome = (olookup s.stateObj g).isSome := by
    rw [Bool.eq_iff_iff, olookup_isSome_iff_mem, olookup_isSome_iff_mem, hkeys]
  rw [hsch, h1]
  exact hK g

theorem keysEq_of_fields (s1 : Store) (st : Obj) (sc : List (String × Rule))
    (hst : s1.stateObj = st) (hsc : s1.schema = sc)
    (h : ∀ g, (olookup st g).isSome = (olookup sc g).isSome) : KeysEq s1 := by
  intro g
  rw [hst, hsc]
  exact h g

theorem keysEq_oset_both (s : Store) (hK : KeysEq s) (f : String) (v : Value) (r : Rule)
    (hstv : ∃ x, olookup (oset s.stateObj f v) f = some x) :
    ∀ g, (olookup (oset s.stateObj f v) g).isSome = (olookup (oset s.schema f r) g).isSome := by
  intro g
  by_cases hgf : g = f
  · subst hgf
    obtain ⟨x, hx⟩ := hstv
    rw [hx, olookup_oset_self]
    rfl
  · rw [olookup_oset_ne s.stateObj f g v hgf, olookup_oset_ne s.schema f g r hgf]
    exact hK g

/-- Claim C9 (amended): state/schema key-set agreement is preserved by
every public operation under the side conditions of `SafeOp`: the register
default validates (or overwrites a truthy value), top-level writes target
registered fields and cannot hit the falsy-delete rollback, and undo/redo
snapshots mention only registered fields with valid values.  Outside those
conditions the agreement can break (see the counterexample: a register
whose default fails validation; likewise claims C1, C5 and C8 exhibit the
falsy-delete, unknown-field and replay-superset breakages). -/
theorem joistor_C9 (s : Store) (op : Op)
    (hK : KeysEq s) (hnds : (okeys s.stateObj).Nodup) (hndsc : (okeys s.schema).Nodup)
    (hsafe : SafeOp s op) : KeysEq (applyOp s op) := by
  cases op with
  | reg so sto =>
    cases so with
    | nil => exact hK
    | cons hd rest =>
      obtain ⟨f, r⟩ := hd
      have hsafe2 : r.check s.opts.strict ((olookup sto f).getD .vUndef) = true ∨
          ∃ ov, olookup s.stateObj f = some ov ∧ ov.truthy = true := hsafe
      have hlk : olookup ((f, r) :: rest) f = some r := by simp [olookup]
      have hs1r : olookup (oset s.schema f r) f = some r := olookup_oset_self s.schema f r
      rcases hsafe2 with hok | ⟨ov, hov, htr⟩
      · have hsetEq := setTop_of_ok { s with updateHistory := false, schema := oset s.schema f r }
          f ((olookup sto f).getD .vUndef) r hs1r hok
        refine keysEq_of_fields _ (oset s.stateObj f ((olookup sto f).getD .vUndef))
          (oset s.schema f r) ?_ ?_ ?_
        · simp only [applyOp, register, hlk, hsetEq]
        · simp only [applyOp, register, hlk, hsetEq]
        · intro g
          exact keysEq_oset_both s hK f _ r ⟨_, olookup_oset_self s.stateObj f _⟩ g
      · cases hok2 : r.check s.opts.strict ((olookup sto f).getD .vUndef) with
        | true =>
          have hsetEq := setTop_of_ok { s with updateHistory := false, schema := oset s.schema f r }
            f ((olookup sto f).getD .vUndef) r hs1r hok2
          refine keysEq_of_fields _ (oset s.stateObj f ((olookup sto f).getD .vUndef))
            (oset s.schema f r) ?_ ?_ ?_
          · simp only [applyOp, register, hlk, hsetEq]
          · simp only [applyOp, register, hlk, hsetEq]
          · intro g
            exact keysEq_oset_both s hK f _ r ⟨_, olookup_oset_self s.stateObj f _⟩ g
        | false =>
          have hsetEq := setTop_of_reject { s with updateHistory := false, schema := oset s.schema f r }
            f ((olookup sto f).getD .vUndef) r hs1r hok2
          refine keysEq_of_fields _
            (oset (oset s.stateObj f ((olookup sto f).getD .vUndef)) f ov)
            (oset s.schema f r) ?_ ?_ ?_
          · simp only [applyOp, register, hlk, hsetEq, hov, htr, if_true]
          · simp only [applyOp, register, hlk, hsetEq, hov, htr, if_true]
          · intro g
            by_cases hgf : g = f
            · subst hgf
              rw [olookup_oset_self, olookup_oset_self]
              rfl
            · rw [olookup_oset_ne (oset s.stateObj f ((olookup sto f).getD .vUndef)) f g ov hgf,
                olookup_oset_ne s.stateObj f g _ hgf, olookup_oset_ne s.schema f g r hgf]
              exact hK g
  | unreg f =>
    intro g
    by_cases hgf : g = f
    · subst hgf
      rw [show (applyOp s (.unreg g)).stateObj = odel s.stateObj g from rfl,
        show (applyOp s (.unreg g)).schema = odel s.schema g from rfl,
        olookup_odel_self s.stateObj g hnds, olookup_odel_self s.schema g hndsc]
      rfl
    · rw [show (applyOp s (.unreg f)).stateObj = odel s.stateObj f from rfl,
        show (applyOp s (.unreg f)).schema = odel s.schema f from rfl,
        olookup_odel_ne s.stateObj f g hgf, olookup_odel_ne s.schema f g hgf]
      exact hK g
  | subscribe p => exact hK
  | write w =>
    cases w with
    | top f v =>
      obtain ⟨r, hr, hdisj⟩ := hsafe
      have hmem : f ∈ okeys s.stateObj := by
        rw [← olookup_isSome_iff_mem, hK f, hr]
        rfl
      have happ : applyOp s (.write (.top f v)) = (setTop s f v).store := rfl
      rw [happ]
      rcases hdisj with hok | ⟨ov, hov, htr⟩
      · rw [setTop_of_ok s f v r hr hok]
        exact keysEq_transfer _ s rfl (okeys_oset_of_mem s.stateObj f v hmem) hK
      · cases hok2 : r.check s.opts.strict v with
        | true =>
          rw [setTop_of_ok s f v r hr hok2]
          exact keysEq_transfer _ s rfl (okeys_oset_of_mem s.stateObj f v hmem) hK
        | false =>
          rw [setTop_of_reject s f v r hr hok2]
          have hkeys : okeys (oset (oset s.stateObj f v) f ov) = okeys s.stateObj := by
            rw [okeys_oset_of_mem _ f ov (by
                rw [okeys_oset_of_mem s.stateObj f v hmem]; exact hmem),
              okeys_oset_of_mem s.stateObj f v hmem]
          refine keysEq_transfer _ s rfl ?_ hK
          simp only [hov, htr, if_true]
          exact hkeys
    | nest b path last v =>
      rcases doWrite_nest_cases s b path last v with ⟨hdw, _⟩ | ⟨res, hsn, hdw⟩
      · rw [show applyOp s (.write (.nest b path last v)) =
          (doWrite s (.nest b path last v)).store from rfl, hdw]
        exact hK
      · rw [show applyOp s (.write (.nest b path last v)) =
          (doWrite s (.nest b path last v)).store from rfl, hdw]
        cases hbv : olookup s.stateObj b with
        | none => simp [setNested, hbv] at hsn
        | some bv =>
          have hbmem : b ∈ okeys s.stateObj :=
            (olookup_isSome_iff_mem s.stateObj b).mp (by rw [hbv]; rfl)
          cases hpar : getAt bv path with
          | none => simp [setNested, hbv, hpar] at hsn
          | some parent =>
            cases hset : setAt bv path last v with
            | none => simp [setNested, hbv, hpar, hset] at hsn
            | some bv1 =>
              cases hrr : olookup s.schema b with
              | none =>
                rw [setNested_missing_shape s b path last v bv parent bv1 hbv hpar hset hrr] at hsn
                injection hsn with hsn
                rw [← hsn]
                exact keysEq_transfer _ s rfl (okeys_oset_of_mem s.stateObj b bv1 hbmem) hK
              | some r =>
                cases hok : r.check s.opts.strict bv1 with
                | false =>
                  obtain ⟨bvr, hshape⟩ :=
                    setNested_reject_shape s b path last v bv parent bv1 r hbv hpar hset hrr hok
                  rw [hshape] at hsn
                  injection hsn with hsn
                  rw [← hsn]
                  exact keysEq_transfer _ s rfl (okeys_oset_of_mem s.stateObj b bvr hbmem) hK
                | true =>
                  rw [setNested_of_ok s b path last v bv parent bv1 r hbv hpar hset hrr hok] at hsn
                  injection hsn with hsn
                  rw [← hsn]
                  exact keysEq_transfer _ s rfl (okeys_oset_of_mem s.stateObj b bv1 hbmem) hK
  | undoOp =>
    cases hL : s.undoH.getLast? with
    | none =>
      have happ : applyOp s .undoOp = s := by simp only [applyOp, undoFn, hL]
      rw [happ]
      exact hK
    | some p =>
      have hrv : ReplayVals s p := hsafe p hL
      have happ : applyOp s .undoOp =
          (replayState (pushRedo { s with undoH := s.undoH.dropLast } (jrtObj s.stateObj)) p).1 := by
        simp only [applyOp, undoFn, hL]
      rw [happ]
      obtain ⟨po, pu, pst, psc, pr⟩ :=
        pushRedo_fields { s with undoH := s.undoH.dropLast } (jrtObj s.stateObj)
      have hKX : KeysEq (pushRedo { s with undoH := s.undoH.dropLast } (jrtObj s.stateObj)) :=
        keysEq_transfer _ s psc (by rw [pst]) hK
      by_cases hc : (okeys (pushRedo { s with undoH := s.undoH.dropLast }
          (jrtObj s.stateObj)).stateObj).all (fun f => (okeys p).contains f) = true
      · have h1 : replayState (pushRedo { s with undoH := s.undoH.dropLast } (jrtObj s.stateObj)) p =
            replayLoop (pushRedo { s with undoH := s.undoH.dropLast } (jrtObj s.stateObj)) (okeys p) p := by
          simp only [replayState, hc, if_true]
        rw [h1]
        have hfields : ∀ f ∈ okeys p, ∃ r v,
            olookup (pushRedo { s with undoH := s.undoH.dropLast } (jrtObj s.stateObj)).schema f = some r ∧
            olookup p f = some v ∧
            r.check (pushRedo { s with undoH := s.undoH.dropLast } (jrtObj s.stateObj)).opts.strict v = true := by
          intro f hf
          have hsome : (olookup p f).isSome = true := (olookup_isSome_iff_mem p f).mpr hf
          cases hpv : olookup p f with
          | none => rw [hpv] at hsome; cases hsome
          | some v =>
            obtain ⟨r, hr2, hok⟩ := hrv f v hpv
            refine ⟨r, v, ?_, rfl, ?_⟩
            · rw [psc]; exact hr2
            · rw [po]; exact hok
        rw [replayLoop_ok (okeys p) _ p hfields]
        refine keysEq_transfer _ s psc ?_ hK
        have hsub : ∀ f ∈ okeys p,
            f ∈ okeys (pushRedo { s with undoH := s.undoH.dropLast } (jrtObj s.stateObj)).stateObj := by
          intro f hf
          have hsome : (olookup p f).isSome = true := (olookup_isSome_iff_mem p f).mpr hf
          cases hpv : olookup p f with
          | none => rw [hpv] at hsome; cases hsome
          | some v =>
            obtain ⟨r, hr2, _⟩ := hrv f v hpv
            rw [pst, ← olookup_isSome_iff_mem, hK f, hr2]
            rfl
        rw [show (Store.stateObj { (pushRedo { s with undoH := s.undoH.dropLast } (jrtObj s.stateObj)) with
            stateObj := setAll (pushRedo { s with undoH := s.undoH.dropLast } (jrtObj s.stateObj)).stateObj (okeys p) p,
            updateHistory := true }) =
          setAll (pushRedo { s with undoH := s.undoH.dropLast } (jrtObj s.stateObj)).stateObj (okeys p) p from rfl]
        rw [okeys_setAll (okeys p) _ p hsub, pst]
      · have h1 : replayState (pushRedo { s with undoH := s.undoH.dropLast } (jrtObj s.stateObj)) p =
            (pushRedo { s with undoH := s.undoH.dropLast } (jrtObj s.stateObj), [],
              some (.jsError "New state fields are not the same as old state fields")) := by
          simp only [replayState]
          rw [if_neg hc]
        rw [h1]
        exact hKX
  | redoOp =>
    cases hL : s.redoH.getLast? with
    | none =>
      have happ : applyOp s .redoOp = s := by simp only [applyOp, redoFn, hL]
      rw [happ]
      exact hK
    | some p =>
      have hrv : ReplayVals s p := hsafe p hL
      have happ : applyOp s .redoOp =
          (replayState (pushUndo { s with redoH := s.redoH.dropLast } (jrtObj s.stateObj)) p).1 := by
        simp only [applyOp, redoFn, hL]
      rw [happ]
      obtain ⟨po, pu, pst, psc, pr⟩ :=
        pushUndo_fields { s with redoH := s.redoH.dropLast } (jrtObj s.stateObj)
      have hKX : KeysEq (pushUndo { s with redoH := s.redoH.dropLast } (jrtObj s.stateObj)) :=
        keysEq_transfer _ s psc (by rw [pst]) hK
      by_cases hc : (okeys (pushUndo { s with redoH := s.redoH.dropLast }
          (jrtObj s.stateObj)).stateObj).all (fun f => (okeys p).contains f) = true
      · have h1 : replayState (pushUndo { s with redoH := s.redoH.dropLast } (jrtObj s.stateObj)) p =
            replayLoop (pushUndo { s with redoH := s.redoH.dropLast } (jrtObj s.stateObj)) (okeys p) p := by
          simp only [replayState, hc, if_true]
        rw [h1]
        have hfields : ∀ f ∈ okeys p, ∃ r v,
            olookup (pushUndo { s with redoH := s.redoH.dropLast } (jrtObj s.stateObj)).schema f = some r ∧
            olookup p f = some v ∧
            r.check (pushUndo { s with redoH := s.redoH.dropLast } (jrtObj s.stateObj)).opts.strict v = true := by
          intro f hf
          have hsome : (olookup p f).isSome = true := (olookup_isSome_iff_mem p f).mpr hf
          cases hpv : olookup p f with
          | none => rw [hpv] at hsome; cases hsome
          | some v =>
            obtain ⟨r, hr2, hok⟩ := hrv f v hpv
            refine ⟨r, v, ?_, rfl, ?_⟩
            · rw [psc]; exact hr2
            · rw [po]; exact hok
        rw [replayLoop_ok (okeys p) _ p hfields]
        refine keysEq_transfer _ s psc ?_ hK
        have hsub : ∀ f ∈ okeys p,
            f ∈ okeys (pushUndo { s with redoH := s.redoH.dropLast } (jrtObj s.stateObj)).stateObj := by
          intro f hf
          have hsome : (olookup p f).isSome = true := (olookup_isSome_iff_mem p f).mpr hf
          cases hpv : olookup p f with
          | none => rw [hpv] at hsome; cases hsome
          | some v =>
            obtain ⟨r, hr2, _⟩ := hrv f v hpv
            rw [pst, ← olookup_isSome_iff_mem, hK f, hr2]
            rfl
        rw [show (Store.stateObj { (pushUndo { s with redoH := s.redoH.dropLast } (jrtObj s.stateObj)) with
            stateObj := setAll (pushUndo { s with redoH := s.redoH.dropLast } (jrtObj s.stateObj)).stateObj (okeys p) p,
            updateHistory := true }) =
          setAll (pushUndo { s with redoH := s.redoH.dropLast } (jrtObj s.stateObj)).stateObj (okeys p) p from rfl]
        rw [okeys_setAll (okeys p) _ p hsub, pst]
      · have h1 : replayState (pushUndo { s with redoH := s.redoH.dropLast } (jrtObj s.stateObj)) p =
            (pushUndo { s with redoH := s.redoH.dropLast } (jrtObj s.stateObj), [],
              some (.jsError "New state fields are not the same as old state fields")) := by
          simp only [replayState]
          rw [if_neg hc]
        rw [h1]
        exact hKX

/-- Witness for claim C9 at a concrete safe operation: an accepted
top-level write to a registered field preserves key-set agreement. -/
theorem joistor_C9_witness :
    KeysEq uStore ∧ SafeOp uStore (.write (.top "u" (.vNum 9))) ∧
    KeysEq (applyOp uStore (.write (.top "u" (.vNum 9)))) := by
  have hK : KeysEq uStore := keysEq_of_okeys uStore rfl
  have hs : SafeOp uStore (.write (.top "u" (.vNum 9))) := ⟨ruleNum, rfl, Or.inl rfl⟩
  refine ⟨hK, hs, ?_⟩
  exact joistor_C9 uStore (.write (.top "u" (.vNum 9))) hK
    (by rw [show okeys uStore.stateObj = ["u"] from rfl]; simp)
    (by rw [show okeys uStore.schema = ["u"] from rfl]; simp) hs

/-- Counterexample to claim C9 as stated: registering a field whose
default value fails validation completes the register call with the field
present in `schema` but rolled back out of `state` — the key sets differ
at a point where no register or unregister is in progress. -/
theorem joistor_C9_counterexample :
    okeys badDefaultStore.schema = ["bad"] ∧
    okeys badDefaultStore.stateObj = [] ∧
    ¬ KeysEq badDefaultStore := by
  refine ⟨rfl, rfl, ?_⟩
  intro h
  have h2 := h "bad"
  rw [show (olookup badDefaultStore.stateObj "bad").isSome = false from rfl,
    show (olookup badDefaultStore.schema "bad").isSome = true from rfl] at h2
  cases h2

theorem setTop_state_ne (s : Store) (f : String) (v : Value) (g : String) (hgf : g ≠ f) :
    olookup (setTop s f v).store.stateObj g = olookup s.stateObj g := by
  cases hr : olookup s.schema f with
  | none =>
    rw [setTop_of_missing s f v hr]
    exact olookup_oset_ne s.stateObj f g v hgf
  | some r =>
    cases hok : r.check s.opts.strict v with
    | true =>
      rw [setTop_of_ok s f v r hr hok]
      exact olookup_oset_ne s.stateObj f g v hgf
    | false =>
      rw [setTop_of_reject s f v r hr hok]
      cases hov : olookup s.stateObj f with
      | none =>
        simp only [hov]
        rw [olookup_odel_ne _ f g hgf, olookup_oset_ne s.stateObj f g v hgf]
      | some ov =>
        simp only [hov]
        cases htr : ov.truthy with
        | true =>
          simp only [htr, if_true]
          rw [olookup_oset_ne _ f g ov hgf, olookup_oset_ne s.stateObj f g v hgf]
        | false =>
          simp only [htr, Bool.false_eq_true, if_false]
          rw [olookup_odel_ne _ f g hgf, olookup_oset_ne s.stateObj f g v hgf]

/-- Claim C10: a `register(schemaObj, stateObj)` call registers exactly one
field — the first enumerated key of `schemaObj` gets its rule installed —
and every further key of `schemaObj`, and every key of `stateObj` other
than that first key, is silently ignored: schema and state lookups for
those keys are unchanged, and the history ledgers are untouched. -/
theorem joistor_C10 (s : Store) (schemaObj : List (String × Rule)) (stateObj : Obj)
    (f : String) (r : Rule) (rest : List (String × Rule))
    (hso : schemaObj = (f, r) :: rest) :
    olookup (register s schemaObj stateObj).schema f = some r ∧
    (∀ g, g ≠ f → olookup (register s schemaObj stateObj).schema g = olookup s.schema g) ∧
    (∀ g, g ≠ f → olookup (register s schemaObj stateObj).stateObj g = olookup s.stateObj g) ∧
    (register s schemaObj stateObj).undoH = s.undoH ∧
    (register s schemaObj stateObj).redoH = s.redoH := by
  subst hso
  have hlk : olookup ((f, r) :: rest) f = some r := by simp [olookup]
  have h1 : register s ((f, r) :: rest) stateObj =
      { (setTop { s with updateHistory := false, schema := oset s.schema f r } f
          ((olookup stateObj f).getD .vUndef)).store with updateHistory := true } := by
    simp only [register, hlk]
  have hsch : (register s ((f, r) :: rest) stateObj).schema = oset s.schema f r := by
    rw [h1]
    exact (setTop_frame { s with updateHistory := false, schema := oset s.schema f r } f
      ((olookup stateObj f).getD .vUndef)).2.1
  have hhist := register_hist s ((f, r) :: rest) stateObj
  refine ⟨?_, ?_, ?_, hhist.2.1, hhist.2.2⟩
  · rw [hsch]
    exact olookup_oset_self s.schema f r
  · intro g hgf
    rw [hsch]
    exact olookup_oset_ne s.schema f g r hgf
  · intro g hgf
    have h2 : (register s ((f, r) :: rest) stateObj).stateObj =
        (setTop { s with updateHistory := false, schema := oset s.schema f r } f
          ((olookup stateObj f).getD .vUndef)).store.stateObj := by rw [h1]
    rw [h2, setTop_state_ne { s with updateHistory := false, schema := oset s.schema f r } f
      ((olookup stateObj f).getD .vUndef) g hgf]

/-- Witness for claim C10: register with a two-key schema object and a
state object carrying an extra key; only the first schema key is
registered. -/
theorem joistor_C10_witness :
    olookup (register (Joistor defaultOpts) [("a", ruleNum), ("b", ruleAny)]
      [("a", .vNum 1), ("c", .vNum 2)]).schema "a" = some ruleNum ∧
    olookup (register (Joistor defaultOpts) [("a", ruleNum), ("b", ruleAny)]
      [("a", .vNum 1), ("c", .vNum 2)]).schema "b" = none ∧
    olookup (register (Joistor defaultOpts) [("a", ruleNum), ("b", ruleAny)]
      [("a", .vNum 1), ("c", .vNum 2)]).stateObj "b" = none ∧
    olookup (register (Joistor defaultOpts) [("a", ruleNum), ("b", ruleAny)]
      [("a", .vNum 1), ("c", .vNum 2)]).stateObj "c" = none ∧
    (register (Joistor defaultOpts) [("a", ruleNum), ("b", ruleAny)]
      [("a", .vNum 1), ("c", .vNum 2)]).undoH = [] := by
  have h := joistor_C10 (Joistor defaultOpts) [("a", ruleNum), ("b", ruleAny)]
    [("a", .vNum 1), ("c", .vNum 2)] "a" ruleNum [("b", ruleAny)] rfl
  refine ⟨h.1, ?_, ?_, ?_, ?_⟩
  · rw [h.2.1 "b" (by decide)]; rfl
  · rw [h.2.2.1 "b" (by decide)]; rfl
  · rw [h.2.2.1 "c" (by decide)]; rfl
  · rw [h.2.2.2.1]; rfl
